import Mathlib

/-!
# Session Discovery & Enrichment Engine — verification development

Shallow embedding of the session-manager core (`sessions` module):
the JSONL log parser (`parseJsonlSession`), the discovery/reconciliation
operation (`getAllSessions`), relevance search (`searchSessions`) and the
deletion protocol (`deleteSession`).

Strings are modelled as Lean `String` (lists of characters); file-system
effects are modelled by explicit "world" records of oracles: each fallible
primitive (`readdir`, `stat`, stream read, `rm`, `writeFile`, `rename`) is a
field returning `Except`/`Bool`, and the source's `try`/`catch` and
`Promise.allSettled` structure is reproduced by explicit matches.
JSON values appearing on log lines are modelled by a record type carrying
exactly the fields the parser probes; JavaScript truthiness tests on
optional string fields are modelled by `truthyS` (present and non-empty).
-/

/-- Decidable equality of `Except` results, used to evaluate the model
on concrete worlds. -/
instance {ε α : Type} [DecidableEq ε] [DecidableEq α] : DecidableEq (Except ε α) :=
  fun x y =>
    match x, y with
    | .ok a, .ok b =>
      if h : a = b then isTrue (by rw [h])
      else isFalse (by intro he; cases he; exact h rfl)
    | .error a, .error b =>
      if h : a = b then isTrue (by rw [h])
      else isFalse (by intro he; cases he; exact h rfl)
    | .ok _, .error _ => isFalse (by intro he; cases he)
    | .error _, .ok _ => isFalse (by intro he; cases he)

/-! ## String helpers (JavaScript primitives used by the source) -/

/-- JavaScript `hay.includes(pat)` on character lists. -/
def chIncl (hay pat : List Char) : Bool := decide (pat <:+: hay)

/-- JavaScript `s.startsWith(p)` on character lists. -/
def chPre (s p : List Char) : Bool := decide (p <+: s)

/-- JavaScript `s.endsWith(p)` on character lists. -/
def chSuf (s p : List Char) : Bool := decide (p <:+ s)

/-- `hay.includes(pat)` for `String`. -/
def sIncludes (hay pat : String) : Bool := chIncl hay.data pat.data

/-- `s.startsWith(p)` for `String`. -/
def sStartsWith (s p : String) : Bool := chPre s.data p.data

/-- `s.endsWith(p)` for `String`. -/
def sEndsWith (s p : String) : Bool := chSuf s.data p.data

/-- JavaScript `s.slice(0, n)` (used with `FIRST_PROMPT_SLICE`). -/
def sTake (s : String) (n : Nat) : String := ⟨s.data.take n⟩

/-- Remove the first occurrence of `pat` from `l`
(JavaScript `l.replace(pat, "")` with a string pattern). -/
def removeFirst (pat : List Char) : List Char → List Char
  | [] => []
  | c :: rest =>
    if chPre (c :: rest) pat then (c :: rest).drop pat.length
    else c :: removeFirst pat rest

/-- `f.replace(".jsonl", "")` — removal of the *first* occurrence,
exactly as the source's filter computes it. -/
def replaceJsonlOnce (f : String) : String := ⟨removeFirst ".jsonl".data f.data⟩

/-- `basename(path, ".jsonl")`: strip a final `".jsonl"` extension
(file names are modelled without directory components). -/
def stripJsonl (f : String) : String :=
  if sEndsWith f ".jsonl" then ⟨f.data.take (f.data.length - 6)⟩ else f

/-- `join(a, b)` for paths. -/
def joinPath (a b : String) : String := a ++ "/" ++ b

/-- Lower-casing, modelling `s.toLowerCase()` character-wise. -/
def lowerChars (s : String) : List Char := s.data.map Char.toLower

mutual
/-- Splitting on runs of whitespace, modelling JavaScript
`s.split(/\s+/)`: a leading or trailing run contributes an empty piece,
and the result is never the empty list (`"".split` gives `[""]`). -/
def splitWSGo (cur : List Char) : List Char → List (List Char)
  | [] => [cur.reverse]
  | c :: rest =>
    if c.isWhitespace then cur.reverse :: splitWSSkip rest
    else splitWSGo (c :: cur) rest

/-- State of `splitWSGo` just after consuming a whitespace character:
skip the rest of the run. -/
def splitWSSkip : List Char → List (List Char)
  | [] => [[]]
  | c :: rest =>
    if c.isWhitespace then splitWSSkip rest
    else splitWSGo [c] rest
end

/-- JavaScript `s.split(/\s+/)` on a character list. -/
def splitWS (l : List Char) : List (List Char) := splitWSGo [] l

/-- Decode a project directory name back to a path: prepend a slash,
strip one leading dash, and replace every remaining dash by a slash
(the source's two chained `replace` calls on the directory name). -/
def decodeDirName (d : String) : String :=
  let stripped : List Char :=
    match d.data with
    | '-' :: rest => rest
    | l => l
  ⟨'/' :: stripped.map (fun c => if c = '-' then '/' else c)⟩

/-- JavaScript truthiness of an optional string field:
`undefined` and `""` are falsy. -/
def truthyS : Option String → Bool
  | none => false
  | some s => s ≠ ""

/-! ## Data model (sessions module interfaces) -/

/-- `SessionEntry` — identity and summary facts for one session
(timestamps are ISO strings, compared lexicographically). -/
structure SessionEntry where
  sessionId : String
  fullPath : String
  fileMtime : Nat
  firstPrompt : String
  summary : Option String := none
  customTitle : Option String := none
  messageCount : Nat
  created : String
  modified : String
  gitBranch : Option String := none
  projectPath : String
  isSidechain : Bool
deriving DecidableEq, Repr

/-- `SessionMeta` side-car document. Only `first_prompt` is consulted by
the discovery path modelled here; the remaining statistics fields are
never read by it and are omitted from the model. -/
structure SessionMeta where
  first_prompt : Option String := none
deriving DecidableEq, Repr

/-- `SessionFacets` side-car document, restricted to the fields the
engine reads (`searchSessions` consults these three; none are read by
discovery). -/
structure SessionFacets where
  underlying_goal : Option String := none
  session_type : Option String := none
  brief_summary : Option String := none
deriving DecidableEq, Repr

/-- `EnrichedSession` — the engine's output unit. -/
structure EnrichedSession where
  entry : SessionEntry
  meta : Option SessionMeta := none
  facets : Option SessionFacets := none
  totalSizeBytes : Nat
  projectDirName : String
  computedDurationMinutes : Option Int := none
  computedInputTokens : Option Nat := none
  computedOutputTokens : Option Nat := none
deriving DecidableEq, Repr

/-- The `sessions-index.json` document shape. -/
structure IndexDoc where
  version : Nat
  entries : List SessionEntry
  originalPath : String
deriving DecidableEq, Repr

/-- Named constant `FIRST_PROMPT_SLICE`. -/
def FIRST_PROMPT_SLICE : Nat := 231

/-- Named constant `SEARCH_WORD_BOUNDARY_BONUS`. -/
def SEARCH_WORD_BOUNDARY_BONUS : ℚ := 1/2

/-! ## Log Stream Parser (`parseJsonlSession`) -/

/-- Token usage object nested at `message.usage`; absent numeric fields
default to `0` via the source's null-coalescing. -/
structure UsageObj where
  input_tokens : Option Nat := none
  cache_creation_input_tokens : Option Nat := none
  cache_read_input_tokens : Option Nat := none
  output_tokens : Option Nat := none
deriving DecidableEq, Repr

/-- One segment of a multi-part `content` payload: either a text-typed
part carrying its text, or any other part shape. -/
inductive ContentPart where
  | textPart (t : String)
  | otherPart
deriving DecidableEq, Repr

/-- A `content` payload: a plain string, an array of parts, or some
other JSON value (for which both `typeof`-checks in the source fail).
A JSON `null` content is modelled as the field being absent, since the
source only accesses it through null-coalescing. -/
inductive ContentVal where
  | str (s : String)
  | arr (parts : List ContentPart)
  | other
deriving DecidableEq, Repr

/-- The nested `message` object of a record. -/
structure MessageObj where
  timestamp : Option String := none
  usage : Option UsageObj := none
  content : Option ContentVal := none
deriving DecidableEq, Repr

/-- A parsed JSONL record, carrying exactly the fields the parser
probes. String-typed fields are `Option String` (absent = `undefined`). -/
structure RecordObj where
  type : Option String := none
  role : Option String := none
  customTitle : Option String := none
  cwd : Option String := none
  gitBranch : Option String := none
  timestamp : Option String := none
  content : Option ContentVal := none
  message : Option MessageObj := none
deriving DecidableEq, Repr

/-- One line of a log file as the streaming loop sees it: blank
(`line.trim()` empty, skipped before counting), corrupt
(`JSON.parse` throws, skipped after setting `hasLines`), or a record. -/
inductive LogLine where
  | blank
  | corrupt
  | record (o : RecordObj)
deriving DecidableEq, Repr

/-- `extractUsage(obj).input`: base input plus cache-creation and
cache-read tokens, each defaulting to `0`. -/
def usageIn (o : RecordObj) : Nat :=
  match o.message.bind (·.usage) with
  | none => 0
  | some u =>
    u.input_tokens.getD 0 + u.cache_creation_input_tokens.getD 0 +
      u.cache_read_input_tokens.getD 0

/-- `extractUsage(obj).output`. -/
def usageOut (o : RecordObj) : Nat :=
  match o.message.bind (·.usage) with
  | none => 0
  | some u => u.output_tokens.getD 0

/-- `obj["content"] ?? obj["message"]?.["content"]`. -/
def contentOf (o : RecordObj) : Option ContentVal :=
  match o.content with
  | some c => some c
  | none => o.message.bind (·.content)

/-- First text-typed part of a multi-part content payload. -/
def firstTextPart : List ContentPart → Option String
  | [] => none
  | .textPart t :: _ => some t
  | .otherPart :: rest => firstTextPart rest

/-- The mutable locals of the parsing loop. -/
structure ParseState where
  projectPath : String := ""
  gitBranch : Option String := none
  customTitle : Option String := none
  firstTimestamp : Option String := none
  lastTimestamp : Option String := none
  firstPrompt : String := "No prompt"
  messageCount : Nat := 0
  inputTokens : Nat := 0
  outputTokens : Nat := 0
  hasLines : Bool := false
deriving DecidableEq, Repr

/-- Metadata seeding block: `if (!projectPath && obj["cwd"]) ...`. -/
def updCwd (o : RecordObj) (st : ParseState) : ParseState :=
  if st.projectPath = "" ∧ truthyS o.cwd then { st with projectPath := o.cwd.getD "" }
  else st

/-- Branch seeding block: `if (!gitBranch && obj["gitBranch"]) ...`. -/
def updBranch (o : RecordObj) (st : ParseState) : ParseState :=
  if st.gitBranch = none ∧ truthyS o.gitBranch then { st with gitBranch := o.gitBranch }
  else st

/-- Timestamp tracking block (own timestamp, else one nested in the
message payload). -/
def updTs (o : RecordObj) (st : ParseState) : ParseState :=
  if truthyS o.timestamp then
    { st with
      firstTimestamp :=
        if truthyS st.firstTimestamp then st.firstTimestamp else o.timestamp,
      lastTimestamp := o.timestamp }
  else if truthyS (o.message.bind (·.timestamp)) then
    { st with
      firstTimestamp :=
        if truthyS st.firstTimestamp then st.firstTimestamp
        else o.message.bind (·.timestamp),
      lastTimestamp := o.message.bind (·.timestamp) }
  else st

/-- Assistant token accumulation block. -/
def updTok (o : RecordObj) (st : ParseState) : ParseState :=
  if o.type = some "assistant" then
    { st with
      inputTokens := st.inputTokens + usageIn o,
      outputTokens := st.outputTokens + usageOut o }
  else st

/-- User-turn block: count the message and, while the first prompt is
still the sentinel, derive it from a string or multi-part payload. -/
def updUser (o : RecordObj) (st : ParseState) : ParseState :=
  if o.type = some "user" ∨ o.role = some "user" then
    let st := { st with messageCount := st.messageCount + 1 }
    if st.firstPrompt = "No prompt" then
      match contentOf o with
      | some (.str s) => { st with firstPrompt := sTake s FIRST_PROMPT_SLICE }
      | some (.arr parts) =>
        match firstTextPart parts with
        | some t => { st with firstPrompt := sTake t FIRST_PROMPT_SLICE }
        | none => st
      | _ => st
    else st
  else st

/-- One iteration of the `for await (const line of rl)` loop: the
source's statement blocks applied in order after the blank-line,
corrupt-line, and `custom-title` shortcuts. -/
def stepLine (st : ParseState) : LogLine → ParseState
  | .blank => st
  | .corrupt => { st with hasLines := true }
  | .record o =>
    let st := { st with hasLines := true }
    if o.type = some "custom-title" then { st with customTitle := o.customTitle }
    else updUser o (updTok o (updTs o (updBranch o (updCwd o st))))

/-- Running the whole streaming loop. -/
def parseLines (lines : List LogLine) : ParseState :=
  lines.foldl stepLine {}

/-- `fs.stat` result: the fields the parser consumes (the millisecond
values converted through `toISOString` are modelled as the resulting
ISO strings). -/
structure FileStat where
  mtimeMs : Nat
  birthtimeIso : String
  mtimeIso : String
deriving DecidableEq, Repr

/-- Successful result of `parseJsonlSession`. -/
structure ParsedSession where
  entry : SessionEntry
  inputTokens : Nat
  outputTokens : Nat
deriving DecidableEq, Repr

/-- `parseJsonlSession(filePath, dirName)`.

`readRes` is the outcome of streaming the file's lines (any stream error
is caught by the function's own `try`/`catch`, yielding `undefined`);
`statRes` is the outcome of the `stat` call made *outside* that
`try`, whose failure therefore propagates as a rejection (`.error`).
`fileName` is the path's basename; `.ok none` models `undefined`. -/
def parseJsonlSession (readRes : Except String (List LogLine))
    (statRes : Except String FileStat) (fileName dirName : String) :
    Except String (Option ParsedSession) :=
  let sessionId := stripJsonl fileName
  match readRes with
  | .error _ => .ok none
  | .ok lines =>
    let st := parseLines lines
    if st.hasLines = false then .ok none
    else
      match statRes with
      | .error e => .error e
      | .ok fileStat =>
        let projectPath :=
          if st.projectPath = "" then decodeDirName dirName else st.projectPath
        let created := st.firstTimestamp.getD fileStat.birthtimeIso
        let modified := st.lastTimestamp.getD fileStat.mtimeIso
        .ok (some
          { entry :=
              { sessionId := sessionId
                fullPath := joinPath dirName fileName
                fileMtime := fileStat.mtimeMs
                firstPrompt := st.firstPrompt
                customTitle := st.customTitle
                messageCount := st.messageCount
                created := created
                modified := modified
                gitBranch := st.gitBranch
                projectPath := projectPath
                isSidechain := false }
            inputTokens := st.inputTokens
            outputTokens := st.outputTokens })

/-! ## Reconciler and top-level discovery (`getAllSessions`) -/

/-- `Math.round(n / d)` for an integer numerator (rounding half toward
positive infinity, as JavaScript does): floor of `n/d + 1/2`. -/
def jsRoundDiv (n : Int) (d : Nat) : Int := Int.fdiv (2 * n + d) (2 * d)

/-- The file-system world a discovery pass runs against. Each field is
the outcome of one primitive the source invokes:
 * `projectDirs` — `readdir` of the projects root;
 * `indexDoc` — `readJson` of a directory's `sessions-index.json`
   (total: `readJson` catches both read and parse errors and yields
   `undefined`, modelled as `none`);
 * `dirFiles` — `readdir` of one project directory;
 * `logRead` — streaming the lines of one log file (directory, file);
 * `logStat` — `stat` of one log file;
 * `metaDoc` / `facetsDoc` — `readJson` of the two side-car documents
   for a session id (total, as above);
 * `sizeOf` — `calculateSessionSize(sessionId, jsonlPath)` (total: its
   `fileSize`/`dirSize` components catch every error and return `0`);
 * `dateMs` — `new Date(s).getTime()` for a timestamp string. -/
structure DiscoveryWorld where
  projectDirs : Except String (List String)
  indexDoc : String → Option IndexDoc
  dirFiles : String → Except String (List String)
  logRead : String → String → Except String (List LogLine)
  logStat : String → String → Except String FileStat
  metaDoc : String → Option SessionMeta
  facetsDoc : String → Option SessionFacets
  sizeOf : String → String → Nat
  dateMs : String → Int

/-- The `RawSession` accumulator record of phase 1. -/
structure RawSession where
  entry : SessionEntry
  jsonlPath : String
  projectDirName : String
  computedInputTokens : Option Nat := none
  computedOutputTokens : Option Nat := none
deriving DecidableEq, Repr

/-- The index ids recorded as "seen" for one project directory. -/
def indexedIdsOf (idx : Option IndexDoc) : List String :=
  match idx with
  | some i => i.entries.map (·.sessionId)
  | none => []

/-- Push of one index entry onto `rawSessions`. -/
def rawOfIndexEntry (e : SessionEntry) (dirName : String) : RawSession :=
  { entry := e, jsonlPath := e.fullPath, projectDirName := dirName }

/-- Push of one successfully parsed unindexed log onto `rawSessions`;
`inputTokens || undefined` turns a zero sum into an absent field. -/
def rawOfParsed (v : ParsedSession) (dirName : String) : RawSession :=
  { entry := v.entry
    jsonlPath := v.entry.fullPath
    projectDirName := dirName
    computedInputTokens := if v.inputTokens = 0 then none else some v.inputTokens
    computedOutputTokens := if v.outputTokens = 0 then none else some v.outputTokens }

/-- The unindexed-log filter:
`files.filter((f) => f.endsWith(".jsonl") && !indexedIds.has(f.replace(".jsonl", "")))`. -/
def jsonlFilesOf (indexedIds : List String) (files : List String) : List String :=
  files.filter (fun f =>
    sEndsWith f ".jsonl" && !(indexedIds.contains (replaceJsonlOnce f)))

/-- The candidates a project's index document contributes, accepted
unconditionally. -/
def fromIndexOf (idx : Option IndexDoc) (dirName : String) : List RawSession :=
  match idx with
  | some i => i.entries.map (rawOfIndexEntry · dirName)
  | none => []

/-- Parse one unindexed log file and wrap a successful, defined result
(the settled-rejection and `undefined` cases contribute nothing). -/
def parsedRawOf (w : DiscoveryWorld) (dirName f : String) : Option RawSession :=
  match parseJsonlSession (w.logRead dirName f) (w.logStat dirName f) f dirName with
  | .ok (some v) => some (rawOfParsed v dirName)
  | _ => none

/-- Phase-1 body for a single project directory: index entries are
accepted unconditionally; then unindexed `.jsonl` files are parsed, a
settled rejection or an `undefined` parse contributing nothing. An
unlistable directory is skipped (`continue`) after its index entries
were already accepted. -/
def rawOfDir (w : DiscoveryWorld) (dirName : String) : List RawSession :=
  match w.dirFiles dirName with
  | .error _ => fromIndexOf (w.indexDoc dirName) dirName
  | .ok files =>
    fromIndexOf (w.indexDoc dirName) dirName ++
      (jsonlFilesOf (indexedIdsOf (w.indexDoc dirName)) files).filterMap
        (parsedRawOf w dirName)

/-- Phase-2 body for one raw session: fetch the two side-car documents
and the size (each total, their `Promise.allSettled` statuses all
fulfilled), override a sentinel first prompt from metadata, and compute
the fallback duration. -/
def enrichRaw (w : DiscoveryWorld) (raw : RawSession) : EnrichedSession :=
  { entry :=
      if truthyS ((w.metaDoc raw.entry.sessionId).bind (·.first_prompt)) ∧
          raw.entry.firstPrompt = "No prompt" then
        { raw.entry with
            firstPrompt :=
              ((w.metaDoc raw.entry.sessionId).bind (·.first_prompt)).getD "" }
      else raw.entry
    meta := w.metaDoc raw.entry.sessionId
    facets := w.facetsDoc raw.entry.sessionId
    totalSizeBytes := w.sizeOf raw.entry.sessionId raw.jsonlPath
    projectDirName := raw.projectDirName
    computedDurationMinutes :=
      some (jsRoundDiv (w.dateMs raw.entry.modified - w.dateMs raw.entry.created) 60000)
    computedInputTokens := raw.computedInputTokens
    computedOutputTokens := raw.computedOutputTokens }

/-- `getAllSessions()`: phase 1 walks the project directories collecting
raw sessions; phase 2 enriches each. A failure to list the projects
root is caught and yields `[]`; every other failure is handled further
down, so the operation as a whole only ever resolves (`.ok`). -/
def getAllSessions (w : DiscoveryWorld) : Except String (List EnrichedSession) :=
  match w.projectDirs with
  | .error _ => .ok []
  | .ok projectDirs => .ok ((projectDirs.flatMap (rawOfDir w)).map (enrichRaw w))

/-! ## Search Ranker (`searchSessions`) -/

/-- The concatenated, lower-cased searchable text of a session. -/
def searchableOf (s : EnrichedSession) : List Char :=
  lowerChars (String.intercalate " "
    [s.entry.customTitle.getD "",
     s.entry.summary.getD "",
     s.entry.firstPrompt,
     (s.facets.bind (·.brief_summary)).getD "",
     (s.facets.bind (·.underlying_goal)).getD "",
     (s.facets.bind (·.session_type)).getD "",
     s.entry.projectPath,
     s.entry.gitBranch.getD ""])

/-- Score of one query term against the searchable text: `1` for a
substring occurrence, plus the word-boundary bonus when the term also
occurs enclosed in spaces or at the very start followed by a space. -/
def termScore (searchable term : List Char) : ℚ :=
  if chIncl searchable term then
    1 + (if chIncl searchable (' ' :: (term ++ [' '])) ∨
           chPre searchable (term ++ [' '])
         then SEARCH_WORD_BOUNDARY_BONUS else 0)
  else 0

/-- Total relevance score of a session for a query. -/
def sessionScore (query : String) (s : EnrichedSession) : ℚ :=
  let terms := splitWS (lowerChars query)
  let searchable := searchableOf s
  terms.foldl (fun sc t => sc + termScore searchable t) 0

/-- Comparator relation of the sort: descending score. -/
def scoreRel (a b : EnrichedSession × ℚ) : Prop := b.2 ≤ a.2

instance : DecidableRel scoreRel := fun a b => inferInstanceAs (Decidable (b.2 ≤ a.2))

instance : IsTotal (EnrichedSession × ℚ) scoreRel := ⟨fun a b => le_total b.2 a.2⟩

instance : IsTrans (EnrichedSession × ℚ) scoreRel :=
  ⟨fun _ _ _ h1 h2 => le_trans h2 h1⟩

/-- `searchSessions(sessions, query)`: score every session, keep the
positively scored ones, sort by descending score (a stable sort, as
JavaScript's), and project the sessions back out. -/
def searchSessions (sessions : List EnrichedSession) (query : String) :
    List EnrichedSession :=
  ((((sessions.map (fun s => (s, sessionScore query s))).filter
      (fun s => 0 < s.2)).insertionSort scoreRel).map (·.1))

/-! ## Deletion Coordinator (`deleteSession`) -/

/-- A file-system operation issued by `deleteSession`, in issue order. -/
inductive FsOp where
  | rmFile (path : String)
  | writeTmpFile (path : String)
  | renameFile (src dst : String)
deriving DecidableEq, Repr

/-- The world a deletion runs against: per-path `rm` outcomes, the
todos-directory listing, the current index document (as `readJson`
yields it), and the outcomes of the index rewrite's two steps. -/
structure DeleteWorld where
  rmOk : String → Bool
  todosListing : Except String (List String)
  indexDoc : Option IndexDoc
  writeOk : Bool
  renameOk : Bool

/-- Result of a deletion: the operations issued, the failed removal
targets, the index document afterwards, and whether an index-rewrite
error was reported. -/
structure DeleteResult where
  trace : List FsOp
  failures : List String
  indexAfter : Option IndexDoc
  indexErrorReported : Bool
deriving Repr

/-- The todo-file selection loop:
`f === id || f.startsWith(id + "-") || f.startsWith(id + ".")`. -/
def todoSelection (id : String) (todoFiles : List String) : List String :=
  todoFiles.filter (fun f =>
    f = id || sStartsWith f (id ++ "-") || sStartsWith f (id ++ "."))

/-- The removal targets issued for a session: the seven fixed
per-session paths, then the matching todo files (none when the todos
directory cannot be listed — that error is caught and logged). -/
def rmTargets (root : String) (w : DeleteWorld) (s : EnrichedSession) : List String :=
  let id := s.entry.sessionId
  [s.entry.fullPath,
   joinPath (root ++ "/debug") (id ++ ".txt"),
   joinPath (root ++ "/file-history") id,
   joinPath (root ++ "/tasks") id,
   joinPath (root ++ "/session-env") id,
   joinPath (root ++ "/usage-data/session-meta") (id ++ ".json"),
   joinPath (root ++ "/usage-data/facets") (id ++ ".json")] ++
    match w.todosListing with
    | .ok todoFiles => (todoSelection id todoFiles).map (joinPath (root ++ "/todos"))
    | .error _ => []

/-- The path of the owning project's `sessions-index.json`. -/
def indexPathOf (root : String) (s : EnrichedSession) : String :=
  joinPath (joinPath (root ++ "/projects") s.projectDirName) "sessions-index.json"

/-- `deleteSession(session)`: issue all removals independently
(`Promise.allSettled`); if any failed, report and skip the index
update entirely. Otherwise rewrite the index — when one exists — by
writing a temporary file and renaming it over the index path; a rewrite
failure is reported and the temporary file removed best-effort. -/
def deleteSession (root : String) (w : DeleteWorld) (s : EnrichedSession) :
    DeleteResult :=
  if (rmTargets root w s).filter (fun p => !w.rmOk p) ≠ [] then
    { trace := (rmTargets root w s).map FsOp.rmFile
      failures := (rmTargets root w s).filter (fun p => !w.rmOk p)
      indexAfter := w.indexDoc
      indexErrorReported := false }
  else
    match w.indexDoc with
    | none =>
      { trace := (rmTargets root w s).map FsOp.rmFile
        failures := []
        indexAfter := none
        indexErrorReported := false }
    | some idx =>
      if w.writeOk then
        if w.renameOk then
          { trace := (rmTargets root w s).map FsOp.rmFile ++
              [.writeTmpFile (indexPathOf root s ++ ".tmp"),
               .renameFile (indexPathOf root s ++ ".tmp") (indexPathOf root s)]
            failures := []
            indexAfter := some
              { idx with
                  entries := idx.entries.filter
                    (fun e => e.sessionId ≠ s.entry.sessionId) }
            indexErrorReported := false }
        else
          { trace := (rmTargets root w s).map FsOp.rmFile ++
              [.writeTmpFile (indexPathOf root s ++ ".tmp"),
               .rmFile (indexPathOf root s ++ ".tmp")]
            failures := []
            indexAfter := w.indexDoc
            indexErrorReported := true }
      else
        { trace := (rmTargets root w s).map FsOp.rmFile ++
            [.rmFile (indexPathOf root s ++ ".tmp")]
          failures := []
          indexAfter := w.indexDoc
          indexErrorReported := true }

/-! ## Observation functions for the parsing loop

Each describes what one loop iteration contributes to one of the
accumulated locals, and is related to `stepLine` by `stepLine_fields`. -/

/-- A line that sets `hasLines` (anything but a blank line). -/
def nonBlank : LogLine → Bool
  | .blank => false
  | _ => true

/-- The timestamp a line contributes to the first/last-seen pair. -/
def tsOf : LogLine → Option String
  | .record o =>
    if o.type = some "custom-title" then none
    else if truthyS o.timestamp then o.timestamp
    else if truthyS (o.message.bind (·.timestamp)) then o.message.bind (·.timestamp)
    else none
  | _ => none

/-- The timestamp sequence of a log, in line order. -/
def tsSeq (lines : List LogLine) : List String := lines.filterMap tsOf

/-- A record counted as a user-authored turn (reached past the
`custom-title` shortcut and typed or addressed as `user`). -/
def isUserTurnRec (o : RecordObj) : Bool :=
  decide (¬o.type = some "custom-title" ∧ (o.type = some "user" ∨ o.role = some "user"))

/-- A log line counted by `messageCount`. -/
def isUserLine : LogLine → Bool
  | .record o => isUserTurnRec o
  | _ => false

/-- The text the first-prompt extraction would read off a record:
a plain string payload, or the first text-typed part of an array. -/
def userTextOf (o : RecordObj) : Option String :=
  match contentOf o with
  | some (.str s) => some s
  | some (.arr parts) => firstTextPart parts
  | _ => none

/-- The (truncated) prompt a line offers to the first-prompt slot. -/
def promptOf (l : LogLine) : Option String :=
  match l with
  | .record o =>
    if isUserTurnRec o then (userTextOf o).map (sTake · FIRST_PROMPT_SLICE) else none
  | _ => none

/-- Input tokens a line contributes. -/
def tokIn : LogLine → Nat
  | .record o => if o.type = some "assistant" then usageIn o else 0
  | _ => 0

/-- Output tokens a line contributes. -/
def tokOut : LogLine → Nat
  | .record o => if o.type = some "assistant" then usageOut o else 0
  | _ => 0

/-- Sum of assistant-record input tokens (base plus cache-creation plus
cache-read) over a log. -/
def assistantInputSum (lines : List LogLine) : Nat := (lines.map tokIn).sum

/-- Sum of assistant-record output tokens over a log. -/
def assistantOutputSum (lines : List LogLine) : Nat := (lines.map tokOut).sum

/-- `updCwd` only touches `projectPath`. -/
theorem updCwd_obs (o : RecordObj) (st : ParseState) :
    (updCwd o st).hasLines = st.hasLines ∧
    (updCwd o st).messageCount = st.messageCount ∧
    (updCwd o st).inputTokens = st.inputTokens ∧
    (updCwd o st).outputTokens = st.outputTokens ∧
    (updCwd o st).firstTimestamp = st.firstTimestamp ∧
    (updCwd o st).lastTimestamp = st.lastTimestamp ∧
    (updCwd o st).firstPrompt = st.firstPrompt := by
  unfold updCwd; split <;> simp

/-- `updBranch` only touches `gitBranch`. -/
theorem updBranch_obs (o : RecordObj) (st : ParseState) :
    (updBranch o st).hasLines = st.hasLines ∧
    (updBranch o st).messageCount = st.messageCount ∧
    (updBranch o st).inputTokens = st.inputTokens ∧
    (updBranch o st).outputTokens = st.outputTokens ∧
    (updBranch o st).firstTimestamp = st.firstTimestamp ∧
    (updBranch o st).lastTimestamp = st.lastTimestamp ∧
    (updBranch o st).firstPrompt = st.firstPrompt := by
  unfold updBranch; split <;> simp

/-- `updTs` only touches the timestamp pair, as `tsOf` describes. -/
theorem updTs_obs (o : RecordObj) (st : ParseState) (hct : ¬o.type = some "custom-title") :
    (updTs o st).hasLines = st.hasLines ∧
    (updTs o st).messageCount = st.messageCount ∧
    (updTs o st).inputTokens = st.inputTokens ∧
    (updTs o st).outputTokens = st.outputTokens ∧
    (updTs o st).firstTimestamp =
      (match tsOf (.record o) with
       | none => st.firstTimestamp
       | some t => if truthyS st.firstTimestamp then st.firstTimestamp else some t) ∧
    (updTs o st).lastTimestamp =
      (match tsOf (.record o) with
       | none => st.lastTimestamp
       | some t => some t) ∧
    (updTs o st).firstPrompt = st.firstPrompt := by
  unfold updTs
  simp only [tsOf, if_neg hct]
  by_cases h1 : truthyS o.timestamp = true
  · rcases ho : o.timestamp with _ | t
    · rw [ho] at h1; exact absurd h1 (by decide)
    · rw [ho] at h1; simp [h1, ho]
  · rw [Bool.not_eq_true] at h1
    by_cases h2 : truthyS (o.message.bind (·.timestamp)) = true
    · rcases ho : o.message.bind (·.timestamp) with _ | t
      · rw [ho] at h2; exact absurd h2 (by decide)
      · rw [ho] at h2; simp [h1, h2, ho]
    · rw [Bool.not_eq_true] at h2
      simp [h1, h2]

/-- `updTok` only touches the token totals, as `tokIn`/`tokOut`
describe. -/
theorem updTok_obs (o : RecordObj) (st : ParseState) :
    (updTok o st).hasLines = st.hasLines ∧
    (updTok o st).messageCount = st.messageCount ∧
    (updTok o st).inputTokens = st.inputTokens + tokIn (.record o) ∧
    (updTok o st).outputTokens = st.outputTokens + tokOut (.record o) ∧
    (updTok o st).firstTimestamp = st.firstTimestamp ∧
    (updTok o st).lastTimestamp = st.lastTimestamp ∧
    (updTok o st).firstPrompt = st.firstPrompt := by
  unfold updTok
  simp only [tokIn, tokOut]
  split <;> simp

/-- `updUser` only touches `messageCount` and `firstPrompt`, as
`isUserLine`/`promptOf` describe. -/
theorem updUser_obs (o : RecordObj) (st : ParseState) (hct : ¬o.type = some "custom-title") :
    (updUser o st).hasLines = st.hasLines ∧
    (updUser o st).messageCount =
      st.messageCount + (if isUserLine (.record o) then 1 else 0) ∧
    (updUser o st).inputTokens = st.inputTokens ∧
    (updUser o st).outputTokens = st.outputTokens ∧
    (updUser o st).firstTimestamp = st.firstTimestamp ∧
    (updUser o st).lastTimestamp = st.lastTimestamp ∧
    (updUser o st).firstPrompt =
      (if st.firstPrompt = "No prompt" then
         match promptOf (.record o) with
         | some p => p
         | none => st.firstPrompt
       else st.firstPrompt) := by
  unfold updUser
  simp only [isUserLine, isUserTurnRec, promptOf, userTextOf, decide_eq_true_eq]
  by_cases hu : o.type = some "user" ∨ o.role = some "user"
  · simp only [if_pos hu, hct, not_false_iff, true_and, hu, if_pos, isUserTurnRec,
      decide_eq_true_eq]
    by_cases hfp : st.firstPrompt = "No prompt"
    · rcases hc : contentOf o with _ | c
      · simp [hfp, hc]
      · cases c with
        | str s => simp [hfp, hc]
        | arr parts =>
          rcases hft : firstTextPart parts with _ | t <;> simp [hfp, hc, hft]
        | other => simp [hfp, hc]
    · simp [hfp]
  · simp [hu, hct]

/-- Field-by-field description of one loop iteration. -/
theorem stepLine_fields (st : ParseState) (l : LogLine) :
    (stepLine st l).hasLines = (st.hasLines || nonBlank l) ∧
    (stepLine st l).messageCount = st.messageCount + (if isUserLine l then 1 else 0) ∧
    (stepLine st l).inputTokens = st.inputTokens + tokIn l ∧
    (stepLine st l).outputTokens = st.outputTokens + tokOut l ∧
    (stepLine st l).firstTimestamp =
      (match tsOf l with
       | none => st.firstTimestamp
       | some t => if truthyS st.firstTimestamp then st.firstTimestamp else some t) ∧
    (stepLine st l).lastTimestamp =
      (match tsOf l with
       | none => st.lastTimestamp
       | some t => some t) ∧
    (stepLine st l).firstPrompt =
      (if st.firstPrompt = "No prompt" then
         match promptOf l with
         | some p => p
         | none => st.firstPrompt
       else st.firstPrompt) := by
  cases l with
  | blank => simp [stepLine, nonBlank, isUserLine, tsOf, promptOf, tokIn, tokOut]
  | corrupt => simp [stepLine, nonBlank, isUserLine, tsOf, promptOf, tokIn, tokOut]
  | record o =>
    by_cases hct : o.type = some "custom-title"
    · have hcu : ¬(o.type = some "user") := by simp [hct]
      have hca : ¬(o.type = some "assistant") := by simp [hct]
      simp [stepLine, nonBlank, isUserLine, isUserTurnRec, tsOf, promptOf, tokIn, tokOut,
        hct, hcu, hca]
    · have h0 : stepLine st (.record o) =
          updUser o (updTok o (updTs o (updBranch o (updCwd o { st with hasLines := true })))) := by
        simp [stepLine, hct]
      obtain ⟨c1, c2, c3, c4, c5, c6, c7⟩ := updCwd_obs o { st with hasLines := true }
      obtain ⟨b1, b2, b3, b4, b5, b6, b7⟩ :=
        updBranch_obs o (updCwd o { st with hasLines := true })
      obtain ⟨t1, t2, t3, t4, t5, t6, t7⟩ :=
        updTs_obs o (updBranch o (updCwd o { st with hasLines := true })) hct
      obtain ⟨k1, k2, k3, k4, k5, k6, k7⟩ :=
        updTok_obs o (updTs o (updBranch o (updCwd o { st with hasLines := true })))
      obtain ⟨u1, u2, u3, u4, u5, u6, u7⟩ :=
        updUser_obs o
          (updTok o (updTs o (updBranch o (updCwd o { st with hasLines := true })))) hct
      rw [h0]
      refine ⟨?_, ?_, ?_, ?_, ?_, ?_, ?_⟩
      · rw [u1, k1, t1, b1, c1]; simp [nonBlank]
      · rw [u2, k2, t2, b2, c2]
      · rw [u3, k3, t3, b3, c3]
      · rw [u4, k4, t4, b4, c4]
      · rw [u5, k5, t5, b5, c5]
      · rw [u6, k6, t6, b6, c6]
      · rw [u7, k7, t7, b7, c7]

/-- Timestamps contributed by lines are truthy (non-empty) strings. -/
theorem tsOf_truthy (l : LogLine) (t : String) (h : tsOf l = some t) : t ≠ "" := by
  cases l with
  | blank => simp [tsOf] at h
  | corrupt => simp [tsOf] at h
  | record o =>
    simp only [tsOf] at h
    split at h
    · exact absurd h (by simp)
    · split at h
      · intro ht
        rename_i htr
        rw [h] at htr
        simp [truthyS, ht] at htr
      · split at h
        · intro ht
          rename_i htr
          rw [h] at htr
          simp [truthyS, ht] at htr
        · exact absurd h (by simp)

/-- Accumulated effect of the parsing loop on every observed local,
for any starting state whose `firstTimestamp` is absent or truthy. -/
theorem parseLines_spec (lines : List LogLine) : ∀ st : ParseState,
    truthyS st.firstTimestamp = st.firstTimestamp.isSome →
    ((lines.foldl stepLine st).hasLines = (st.hasLines || lines.any nonBlank)) ∧
    ((lines.foldl stepLine st).messageCount = st.messageCount + lines.countP isUserLine) ∧
    ((lines.foldl stepLine st).inputTokens = st.inputTokens + (lines.map tokIn).sum) ∧
    ((lines.foldl stepLine st).outputTokens = st.outputTokens + (lines.map tokOut).sum) ∧
    ((lines.foldl stepLine st).firstTimestamp =
       match st.firstTimestamp with
       | some s => some s
       | none => (tsSeq lines).head?) ∧
    ((lines.foldl stepLine st).lastTimestamp =
       match (tsSeq lines).getLast? with
       | some t => some t
       | none => st.lastTimestamp) ∧
    ((lines.foldl stepLine st).firstPrompt =
       if st.firstPrompt = "No prompt" then
         match ((lines.filterMap promptOf).filter (fun p => p ≠ "No prompt")).head? with
         | some p => p
         | none => st.firstPrompt
       else st.firstPrompt) := by
  induction lines with
  | nil =>
    intro st hst
    simp [tsSeq]
    cases h : st.firstTimestamp <;> simp
  | cons l rest ih =>
    intro st hst
    obtain ⟨s1, s2, s3, s4, s5, s6, s7⟩ := stepLine_fields st l
    have hst1 : truthyS (stepLine st l).firstTimestamp = (stepLine st l).firstTimestamp.isSome := by
      rw [s5]
      rcases hts : tsOf l with _ | t
      · exact hst
      · have htr : truthyS (some t) = true := by
          simp [truthyS, tsOf_truthy l t hts]
        by_cases h : truthyS st.firstTimestamp = true
        · simp [h, ← hst, h]
        · rw [Bool.not_eq_true] at h
          simp [h, htr]
    obtain ⟨i1, i2, i3, i4, i5, i6, i7⟩ := ih (stepLine st l) hst1
    simp only [List.foldl_cons]
    refine ⟨?_, ?_, ?_, ?_, ?_, ?_, ?_⟩
    · rw [i1, s1]; simp [List.any_cons, Bool.or_assoc]
    · rw [i2, s2]; simp [List.countP_cons]
      split <;> omega
    · rw [i3, s3]; simp; omega
    · rw [i4, s4]; simp; omega
    · rw [i5, s5]
      rcases hts : tsOf l with _ | t
      · have : tsSeq (l :: rest) = tsSeq rest := by simp [tsSeq, List.filterMap_cons, hts]
        rw [this]
      · have hseq : tsSeq (l :: rest) = t :: tsSeq rest := by
          simp [tsSeq, List.filterMap_cons, hts]
        rw [hseq]
        by_cases h : truthyS st.firstTimestamp = true
        · rcases hsf : st.firstTimestamp with _ | s
          · rw [hsf] at h; exact absurd h (by decide)
          · rw [hsf] at h; simp [h]
        · rw [Bool.not_eq_true] at h
          have hiso : st.firstTimestamp.isSome = false := by rw [← hst]; exact h
          rcases hsf : st.firstTimestamp with _ | s
          · have hn : truthyS none = false := rfl
            simp [hn]
          · rw [hsf] at hiso; simp at hiso
    · rw [i6, s6]
      rcases hts : tsOf l with _ | t
      · have he : tsSeq (l :: rest) = tsSeq rest := by simp [tsSeq, List.filterMap_cons, hts]
        rw [he]
      · have hseq : tsSeq (l :: rest) = t :: tsSeq rest := by
          simp [tsSeq, List.filterMap_cons, hts]
        rw [hseq]
        cases hsr : tsSeq rest with
        | nil => simp
        | cons a tail =>
          have h1 : (t :: a :: tail).getLast? = (a :: tail).getLast? := rfl
          rw [h1]
          rcases h2 : (a :: tail).getLast? with _ | u
          · simp at h2
          · simp
    · rw [i7, s7]
      by_cases hfp : st.firstPrompt = "No prompt"
      · rcases hp : promptOf l with _ | p
        · have he : List.filterMap promptOf (l :: rest) = List.filterMap promptOf rest := by
            simp [List.filterMap_cons, hp]
          rw [he]
          simp [hfp]
        · have he : List.filterMap promptOf (l :: rest) = p :: List.filterMap promptOf rest := by
            simp [List.filterMap_cons, hp]
          rw [he]
          by_cases hps : p = "No prompt"
          · simp [hps, hfp]
          · simp [hps, hfp]
      · simp [hfp]

/-- The parsing loop from the initial state, field by field. -/
theorem parseLines_fields (lines : List LogLine) :
    (parseLines lines).hasLines = lines.any nonBlank ∧
    (parseLines lines).messageCount = lines.countP isUserLine ∧
    (parseLines lines).inputTokens = assistantInputSum lines ∧
    (parseLines lines).outputTokens = assistantOutputSum lines ∧
    (parseLines lines).firstTimestamp = (tsSeq lines).head? ∧
    (parseLines lines).lastTimestamp = (tsSeq lines).getLast? ∧
    (parseLines lines).firstPrompt =
      (match ((lines.filterMap promptOf).filter (fun p => p ≠ "No prompt")).head? with
       | some p => p
       | none => "No prompt") := by
  obtain ⟨h1, h2, h3, h4, h5, h6, h7⟩ := parseLines_spec lines {} rfl
  unfold parseLines
  refine ⟨by simpa using h1, by simpa using h2, ?_, ?_, by simpa using h5, ?_, ?_⟩
  · simpa [assistantInputSum] using h3
  · simpa [assistantOutputSum] using h4
  · rw [h6]; cases (tsSeq lines).getLast? <;> rfl
  · simpa using h7

/-- `parseJsonlSession` on a log with no non-blank line yields
`undefined` (this is the `hasLines` short-circuit). -/
theorem parseJsonlSession_no_lines (lines : List LogLine)
    (statRes : Except String FileStat) (f d : String)
    (h : lines.any nonBlank = false) :
    parseJsonlSession (.ok lines) statRes f d = .ok none := by
  have hh := (parseLines_fields lines).1
  rw [h] at hh
  simp [parseJsonlSession, hh]

/-- `parseJsonlSession` on a readable log with a non-blank line and a
successful `stat`: the full result shape. -/
theorem parseJsonlSession_ok (lines : List LogLine) (fs : FileStat) (f d : String)
    (h : lines.any nonBlank = true) :
    parseJsonlSession (.ok lines) (.ok fs) f d =
      .ok (some
        { entry :=
            { sessionId := stripJsonl f
              fullPath := joinPath d f
              fileMtime := fs.mtimeMs
              firstPrompt :=
                (match ((lines.filterMap promptOf).filter
                    (fun p => p ≠ "No prompt")).head? with
                 | some p => p
                 | none => "No prompt")
              customTitle := (parseLines lines).customTitle
              messageCount := lines.countP isUserLine
              created := ((tsSeq lines).head?).getD fs.birthtimeIso
              modified := ((tsSeq lines).getLast?).getD fs.mtimeIso
              gitBranch := (parseLines lines).gitBranch
              projectPath :=
                if (parseLines lines).projectPath = "" then decodeDirName d
                else (parseLines lines).projectPath
              isSidechain := false }
          inputTokens := assistantInputSum lines
          outputTokens := assistantOutputSum lines }) := by
  obtain ⟨h1, h2, h3, h4, h5, h6, h7⟩ := parseLines_fields lines
  rw [h] at h1
  simp only [parseJsonlSession, h1, Bool.true_eq_false, if_false]
  rw [h2, h3, h4, h5, h6, h7]

/-- Inversion: a successful parse pins down the oracles and the
identity, timing, and token fields of the produced candidate. -/
theorem parseJsonlSession_ok_inv (rr : Except String (List LogLine))
    (sr : Except String FileStat) (f d : String) (v : ParsedSession)
    (h : parseJsonlSession rr sr f d = .ok (some v)) :
    ∃ lines fs, rr = .ok lines ∧ sr = .ok fs ∧ lines.any nonBlank = true ∧
      v.entry.sessionId = stripJsonl f ∧
      v.entry.created = ((tsSeq lines).head?).getD fs.birthtimeIso ∧
      v.entry.modified = ((tsSeq lines).getLast?).getD fs.mtimeIso ∧
      v.inputTokens = assistantInputSum lines ∧
      v.outputTokens = assistantOutputSum lines := by
  cases rr with
  | error e => simp [parseJsonlSession] at h
  | ok lines =>
    by_cases hnb : lines.any nonBlank = true
    · cases sr with
      | error e =>
        rw [parseJsonlSession] at h
        have hh := (parseLines_fields lines).1
        rw [hnb] at hh
        simp [hh] at h
      | ok fs =>
        rw [parseJsonlSession_ok lines fs f d hnb] at h
        refine ⟨lines, fs, rfl, rfl, hnb, ?_⟩
        injection h with h
        injection h with h
        rw [← h]
        exact ⟨rfl, rfl, rfl, rfl, rfl⟩
    · rw [Bool.not_eq_true] at hnb
      rw [parseJsonlSession_no_lines lines sr f d hnb] at h
      simp at h

/-! ## Claims C5 and C6 — log parser behaviour -/

/-- A line that `JSON.parse` accepted (a "parseable" line). -/
def isRecordLine : LogLine → Bool
  | .record _ => true
  | _ => false

/-- A small concrete `stat` result used by concrete instances. -/
def statEx : FileStat := { mtimeMs := 5, birthtimeIso := "b", mtimeIso := "m" }

/-- C5, counterexample: a log whose only line is non-blank but
unparseable has zero parseable lines, yet the parser returns a
(default-filled) entry instead of `undefined` — the `hasLines` flag is
set before `JSON.parse` is attempted, so the claim as stated is false. -/
theorem claimC5_counterexample :
    [LogLine.corrupt].countP isRecordLine = 0 ∧
      parseJsonlSession (.ok [LogLine.corrupt]) (.ok statEx) "s.jsonl" "-d" ≠
        .ok none := by
  constructor
  · decide
  · intro h
    rw [parseJsonlSession_ok [LogLine.corrupt] statEx "s.jsonl" "-d" (by decide)] at h
    simp at h

/-- C5, amended: the parser yields `undefined` exactly for an absent or
unreadable file and for a file with zero NON-BLANK lines; a non-blank
line counts even when it fails to parse. -/
theorem claimC5_amended (readRes : Except String (List LogLine))
    (statRes : Except String FileStat) (f d : String) :
    (∀ e, readRes = .error e → parseJsonlSession readRes statRes f d = .ok none) ∧
    (∀ lines, readRes = .ok lines → (∀ l ∈ lines, l = .blank) →
      parseJsonlSession readRes statRes f d = .ok none) := by
  constructor
  · intro e he; rw [he]; rfl
  · intro lines hl hb
    rw [hl]
    apply parseJsonlSession_no_lines
    rw [List.any_eq_false]
    intro x hx
    rw [hb x hx]
    simp [nonBlank]

/-- C5, witness: the amended theorem applied to a whitespace-only log. -/
theorem claimC5_amended_witness :
    parseJsonlSession (.ok [LogLine.blank]) (.ok statEx) "s.jsonl" "d" = .ok none :=
  (claimC5_amended (.ok [LogLine.blank]) (.ok statEx) "s.jsonl" "d").2
    [LogLine.blank] rfl (by decide)

/-- C6, counterexample: in a log whose first user turn's text is exactly
the sentinel string "No prompt", `firstPrompt` ends up being the SECOND
user turn's text, not the first one's (the sentinel doubles as the
"unset" flag), so the claim as stated is false. -/
theorem claimC6_counterexample :
    parseJsonlSession
        (.ok [.record { type := some "user", content := some (.str "No prompt") },
              .record { type := some "user", content := some (.str "hello") }])
        (.ok statEx) "s.jsonl" "-d" =
      .ok (some
        { entry :=
            { sessionId := "s"
              fullPath := "-d/s.jsonl"
              fileMtime := 5
              firstPrompt := "hello"
              messageCount := 2
              created := "b"
              modified := "m"
              projectPath := "/d"
              isSidechain := false }
          inputTokens := 0
          outputTokens := 0 }) ∧
    sTake "No prompt" FIRST_PROMPT_SLICE = "No prompt" ∧
    ("hello" : String) ≠ "No prompt" := by
  refine ⟨by decide, by decide, by decide⟩

/-- C6, amended: for a log of N user-turn records with extractable text,
possibly interleaved with blank and corrupt lines, `messageCount = N`
and `firstPrompt` is the first record's text truncated to
`FIRST_PROMPT_SLICE` — provided that truncation is not the literal
sentinel "No prompt" (a record truncating to the sentinel leaves the
slot unset and a later record fills it). -/
theorem claimC6_amended (lines : List LogLine) (fs : FileStat) (f d : String)
    (hlines : ∀ l ∈ lines, l = .blank ∨ l = .corrupt ∨
      (isUserLine l = true ∧ promptOf l ≠ none))
    (hN : 0 < lines.countP isUserLine)
    (hfirst : ∀ p, (lines.filterMap promptOf).head? = some p → p ≠ "No prompt") :
    (parseJsonlSession (.ok lines) (.ok fs) f d).map
        (Option.map (fun v => (v.entry.messageCount, v.entry.firstPrompt))) =
      .ok (some (lines.countP isUserLine,
        ((lines.filterMap promptOf).head?).getD "No prompt")) := by
  have huser : ∃ l ∈ lines, isUserLine l = true := by
    rw [← List.countP_pos_iff]; exact hN
  obtain ⟨lu, hlu, hu⟩ := huser
  have hnb : lines.any nonBlank = true := by
    rw [List.any_eq_true]
    refine ⟨lu, hlu, ?_⟩
    cases lu with
    | blank => simp [isUserLine] at hu
    | corrupt => rfl
    | record o => rfl
  rw [parseJsonlSession_ok lines fs f d hnb]
  have hpne : promptOf lu ≠ none := by
    rcases hlines lu hlu with h | h | h
    · rw [h] at hu; simp [isUserLine] at hu
    · rw [h] at hu; simp [isUserLine] at hu
    · exact h.2
  rcases hp0 : promptOf lu with _ | p0
  · exact absurd hp0 hpne
  have hPne : lines.filterMap promptOf ≠ [] := by
    intro he
    have : p0 ∈ lines.filterMap promptOf := List.mem_filterMap.mpr ⟨lu, hlu, hp0⟩
    rw [he] at this
    exact List.not_mem_nil p0 this
  rcases hP : lines.filterMap promptOf with _ | ⟨p, P⟩
  · exact absurd hP hPne
  have hps : p ≠ "No prompt" := hfirst p (by rw [hP]; rfl)
  simp only [Except.map, Option.map, hP]
  have : List.filter (fun q => decide (q ≠ "No prompt")) (p :: P) =
      p :: List.filter (fun q => decide (q ≠ "No prompt")) P := by
    simp [List.filter_cons, hps]
  rw [this]
  rfl

/-- C6, witness: the amended theorem at a two-line log (one corrupt
line, one user turn reading "hi"). -/
theorem claimC6_amended_witness :
    (parseJsonlSession
        (.ok [LogLine.corrupt, .record { type := some "user", content := some (.str "hi") }])
        (.ok statEx) "s.jsonl" "-d").map
        (Option.map (fun v => (v.entry.messageCount, v.entry.firstPrompt))) =
      .ok (some
        (([LogLine.corrupt,
           .record { type := some "user", content := some (.str "hi") }].countP isUserLine),
         ((([LogLine.corrupt,
             .record { type := some "user",
                       content := some (.str "hi") }].filterMap promptOf).head?).getD
           "No prompt"))) :=
  claimC6_amended _ statEx "s.jsonl" "-d" (by decide) (by decide) (by decide)

/-! ## Claims C1 and C2 — deletion protocol -/

/-- A basic session entry fixture. -/
def mkEntry (id : String) : SessionEntry :=
  { sessionId := id
    fullPath := "p/" ++ id ++ ".jsonl"
    fileMtime := 0
    firstPrompt := "No prompt"
    messageCount := 0
    created := "2024-01-01"
    modified := "2024-01-02"
    projectPath := "/x"
    isSidechain := false }

/-- A basic enriched session fixture. -/
def mkSession (id : String) : EnrichedSession :=
  { entry := mkEntry id, totalSizeBytes := 0, projectDirName := "d" }

/-- `deleteSession` when some removal failed: everything is reported,
the index document is untouched, and only `rm` operations were issued. -/
theorem deleteSession_eq_of_fail (root : String) (w : DeleteWorld) (s : EnrichedSession)
    (h : (rmTargets root w s).filter (fun p => !w.rmOk p) ≠ []) :
    deleteSession root w s =
      { trace := (rmTargets root w s).map FsOp.rmFile
        failures := (rmTargets root w s).filter (fun p => !w.rmOk p)
        indexAfter := w.indexDoc
        indexErrorReported := false } := by
  unfold deleteSession; rw [if_pos h]

/-- `deleteSession` when all removals succeeded but no index document
exists: nothing is written. -/
theorem deleteSession_eq_of_ok_none (root : String) (w : DeleteWorld) (s : EnrichedSession)
    (h : (rmTargets root w s).filter (fun p => !w.rmOk p) = [])
    (hidx : w.indexDoc = none) :
    deleteSession root w s =
      { trace := (rmTargets root w s).map FsOp.rmFile
        failures := []
        indexAfter := none
        indexErrorReported := false } := by
  unfold deleteSession; rw [if_neg (fun hne => hne h), hidx]

/-- `deleteSession` when all removals succeeded and the rewrite goes
through: the entry is filtered out and the trace ends with the
temporary-file write followed by the rename. -/
theorem deleteSession_eq_of_ok_some (root : String) (w : DeleteWorld) (s : EnrichedSession)
    (idx : IndexDoc) (h : (rmTargets root w s).filter (fun p => !w.rmOk p) = [])
    (hidx : w.indexDoc = some idx) (hw : w.writeOk = true) (hr : w.renameOk = true) :
    deleteSession root w s =
      { trace := (rmTargets root w s).map FsOp.rmFile ++
          [.writeTmpFile (indexPathOf root s ++ ".tmp"),
           .renameFile (indexPathOf root s ++ ".tmp") (indexPathOf root s)]
        failures := []
        indexAfter := some
          { idx with
              entries := idx.entries.filter (fun e => e.sessionId ≠ s.entry.sessionId) }
        indexErrorReported := false } := by
  unfold deleteSession; rw [if_neg (fun hne => hne h), hidx, hw, hr]; rfl

/-- `deleteSession` when the rename step fails: the temporary file is
cleaned up and the index document is untouched. -/
theorem deleteSession_eq_of_rename_fail (root : String) (w : DeleteWorld)
    (s : EnrichedSession) (idx : IndexDoc)
    (h : (rmTargets root w s).filter (fun p => !w.rmOk p) = [])
    (hidx : w.indexDoc = some idx) (hw : w.writeOk = true) (hr : w.renameOk = false) :
    deleteSession root w s =
      { trace := (rmTargets root w s).map FsOp.rmFile ++
          [.writeTmpFile (indexPathOf root s ++ ".tmp"),
           .rmFile (indexPathOf root s ++ ".tmp")]
        failures := []
        indexAfter := some idx
        indexErrorReported := true } := by
  unfold deleteSession; rw [if_neg (fun hne => hne h), hidx, hw, hr]; rfl

/-- `deleteSession` when the temporary-file write fails: cleanup is
attempted and the index document is untouched. -/
theorem deleteSession_eq_of_write_fail (root : String) (w : DeleteWorld)
    (s : EnrichedSession) (idx : IndexDoc)
    (h : (rmTargets root w s).filter (fun p => !w.rmOk p) = [])
    (hidx : w.indexDoc = some idx) (hw : w.writeOk = false) :
    deleteSession root w s =
      { trace := (rmTargets root w s).map FsOp.rmFile ++
          [.rmFile (indexPathOf root s ++ ".tmp")]
        failures := []
        indexAfter := some idx
        indexErrorReported := true } := by
  unfold deleteSession; rw [if_neg (fun hne => hne h), hidx, hw]; rfl

/-- Every removal target gets an `rm` issued in the trace. -/
theorem deleteSession_trace_rm (root : String) (w : DeleteWorld)
    (s : EnrichedSession) (p : String) (hp : p ∈ rmTargets root w s) :
    FsOp.rmFile p ∈ (deleteSession root w s).trace := by
  have hmem : FsOp.rmFile p ∈ (rmTargets root w s).map FsOp.rmFile :=
    List.mem_map_of_mem FsOp.rmFile hp
  by_cases hf : (rmTargets root w s).filter (fun p => !w.rmOk p) ≠ []
  · rw [deleteSession_eq_of_fail root w s hf]; exact hmem
  · have hf0 : (rmTargets root w s).filter (fun p => !w.rmOk p) = [] := not_not.mp hf
    rcases hidx : w.indexDoc with _ | idx
    · rw [deleteSession_eq_of_ok_none root w s hf0 hidx]; exact hmem
    · by_cases hw : w.writeOk = true
      · by_cases hr : w.renameOk = true
        · rw [deleteSession_eq_of_ok_some root w s idx hf0 hidx hw hr]
          exact List.mem_append_left _ hmem
        · rw [deleteSession_eq_of_rename_fail root w s idx hf0 hidx hw
            (Bool.not_eq_true _ ▸ hr)]
          exact List.mem_append_left _ hmem
      · rw [deleteSession_eq_of_write_fail root w s idx hf0 hidx
          (Bool.not_eq_true _ ▸ hw)]
        exact List.mem_append_left _ hmem

/-- C1: the reported failures are exactly the failed removal targets;
if any removal fails the index document is left completely unchanged
(so the session's entry remains in it) and only `rm` operations were
issued; a rename in the trace implies every removal succeeded; and when
every removal succeeds (and an index document exists) the rewrite is
performed by writing a temporary file and renaming it over the index
path, leaving the index without the session's entry. -/
theorem claimC1_delete_protocol (root : String) (w : DeleteWorld) (s : EnrichedSession) :
    ((deleteSession root w s).failures =
       (rmTargets root w s).filter (fun p => !w.rmOk p)) ∧
    ((deleteSession root w s).failures ≠ [] →
       (deleteSession root w s).indexAfter = w.indexDoc ∧
       (deleteSession root w s).trace = (rmTargets root w s).map FsOp.rmFile) ∧
    ((∃ a b, FsOp.renameFile a b ∈ (deleteSession root w s).trace) →
       (rmTargets root w s).filter (fun p => !w.rmOk p) = []) ∧
    ((rmTargets root w s).filter (fun p => !w.rmOk p) = [] →
       ∀ idx, w.indexDoc = some idx → w.writeOk = true → w.renameOk = true →
         (deleteSession root w s).indexAfter =
           some { idx with
                    entries := idx.entries.filter
                      (fun e => e.sessionId ≠ s.entry.sessionId) } ∧
         (deleteSession root w s).trace =
           (rmTargets root w s).map FsOp.rmFile ++
             [FsOp.writeTmpFile (indexPathOf root s ++ ".tmp"),
              FsOp.renameFile (indexPathOf root s ++ ".tmp") (indexPathOf root s)]) := by
  by_cases hf : (rmTargets root w s).filter (fun p => !w.rmOk p) ≠ []
  · rw [deleteSession_eq_of_fail root w s hf]
    refine ⟨rfl, fun _ => ⟨rfl, rfl⟩, ?_, fun h => absurd h hf⟩
    rintro ⟨a, b, hab⟩
    simp only [List.mem_map] at hab
    obtain ⟨x, _, hx⟩ := hab
    cases hx
  · have hf0 : (rmTargets root w s).filter (fun p => !w.rmOk p) = [] := not_not.mp hf
    have hfail0 : (deleteSession root w s).failures = [] := by
      rcases hidx : w.indexDoc with _ | idx
      · rw [deleteSession_eq_of_ok_none root w s hf0 hidx]
      · by_cases hw : w.writeOk = true
        · by_cases hr : w.renameOk = true
          · rw [deleteSession_eq_of_ok_some root w s idx hf0 hidx hw hr]
          · rw [deleteSession_eq_of_rename_fail root w s idx hf0 hidx hw
              (Bool.not_eq_true _ ▸ hr)]
        · rw [deleteSession_eq_of_write_fail root w s idx hf0 hidx
            (Bool.not_eq_true _ ▸ hw)]
    refine ⟨by rw [hfail0, hf0], fun hne => absurd hfail0 hne, fun _ => hf0, ?_⟩
    intro _ idx hidx hw hr
    rw [deleteSession_eq_of_ok_some root w s idx hf0 hidx hw hr]
    exact ⟨rfl, rfl⟩

/-- C1, witness: a deletion in which removing the raw log fails leaves
a one-entry index intact, reports the failure, and issues no write. -/
theorem claimC1_witness :
    (deleteSession "r"
        { rmOk := fun p => p ≠ "p/abc.jsonl"
          todosListing := .ok []
          indexDoc := some { version := 1, entries := [mkEntry "abc"], originalPath := "/x" }
          writeOk := true
          renameOk := true }
        (mkSession "abc")).failures ≠ [] ∧
    (deleteSession "r"
        { rmOk := fun p => p ≠ "p/abc.jsonl"
          todosListing := .ok []
          indexDoc := some { version := 1, entries := [mkEntry "abc"], originalPath := "/x" }
          writeOk := true
          renameOk := true }
        (mkSession "abc")).indexAfter =
      some { version := 1, entries := [mkEntry "abc"], originalPath := "/x" } := by
  constructor
  · rw [(claimC1_delete_protocol "r"
      { rmOk := fun p => p ≠ "p/abc.jsonl"
        todosListing := .ok []
        indexDoc := some { version := 1, entries := [mkEntry "abc"], originalPath := "/x" }
        writeOk := true
        renameOk := true } (mkSession "abc")).1]
    decide
  · exact ((claimC1_delete_protocol "r"
      { rmOk := fun p => p ≠ "p/abc.jsonl"
        todosListing := .ok []
        indexDoc := some { version := 1, entries := [mkEntry "abc"], originalPath := "/x" }
        writeOk := true
        renameOk := true } (mkSession "abc")).2.1 (by
          rw [(claimC1_delete_protocol "r"
            { rmOk := fun p => p ≠ "p/abc.jsonl"
              todosListing := .ok []
              indexDoc := some { version := 1, entries := [mkEntry "abc"], originalPath := "/x" }
              writeOk := true
              renameOk := true } (mkSession "abc")).1]
          decide)).1

/-- C2: a file in the todos area is selected for removal precisely when
its name equals the session id, or starts with the id followed by a
dash, or starts with the id followed by a dot; every selected file gets
a removal issued; and in the concrete scenario with files `abc123`,
`abc123-sub`, `abc123.json`, `abc1234-other`, deleting session `abc123`
selects exactly the first three. -/
theorem claimC2_todo_matching (root : String) (w : DeleteWorld) (s : EnrichedSession)
    (files : List String) (f : String)
    (hlist : w.todosListing = Except.ok files) (hf : f ∈ files) :
    ((f ∈ todoSelection s.entry.sessionId files ↔
        f = s.entry.sessionId ∨
          sStartsWith f (s.entry.sessionId ++ "-") = true ∨
          sStartsWith f (s.entry.sessionId ++ ".") = true) ∧
      (f ∈ todoSelection s.entry.sessionId files →
        FsOp.rmFile (joinPath (root ++ "/todos") f) ∈ (deleteSession root w s).trace)) ∧
    todoSelection "abc123" ["abc123", "abc123-sub", "abc123.json", "abc1234-other"] =
      ["abc123", "abc123-sub", "abc123.json"] := by
  refine ⟨⟨?_, ?_⟩, by decide⟩
  · unfold todoSelection
    rw [List.mem_filter]
    simp only [hf, true_and, Bool.or_eq_true, decide_eq_true_eq]
    tauto
  · intro hsel
    apply deleteSession_trace_rm
    unfold rmTargets
    apply List.mem_append_right
    rw [hlist]
    exact List.mem_map_of_mem _ hsel

/-- C2, witness: the matching rule applied in the concrete scenario —
`abc123.json` is selected, `abc1234-other` is not. -/
theorem claimC2_witness :
    "abc123.json" ∈ todoSelection "abc123"
        ["abc123", "abc123-sub", "abc123.json", "abc1234-other"] ∧
    "abc1234-other" ∉ todoSelection "abc123"
        ["abc123", "abc123-sub", "abc123.json", "abc1234-other"] := by
  constructor
  · exact ((claimC2_todo_matching "r"
      { rmOk := fun _ => true
        todosListing := .ok ["abc123", "abc123-sub", "abc123.json", "abc1234-other"]
        indexDoc := none, writeOk := true, renameOk := true }
      (mkSession "abc123")
      ["abc123", "abc123-sub", "abc123.json", "abc1234-other"]
      "abc123.json" rfl (by decide)).1.1).mpr (by decide)
  · intro hmem
    have h := ((claimC2_todo_matching "r"
      { rmOk := fun _ => true
        todosListing := .ok ["abc123", "abc123-sub", "abc123.json", "abc1234-other"]
        indexDoc := none, writeOk := true, renameOk := true }
      (mkSession "abc1234-other")
      ["abc123", "abc123-sub", "abc123.json", "abc1234-other"]
      "abc1234-other" rfl (by decide)).2)
    rw [h] at hmem
    exact absurd hmem (by decide)

/-! ## Claims C8 and C10 — search ranker -/

/-- `splitWSGo`/`splitWSSkip` never return an empty piece list. -/
theorem splitWS_aux_ne_nil (l : List Char) :
    (∀ cur, splitWSGo cur l ≠ []) ∧ splitWSSkip l ≠ [] := by
  induction l with
  | nil => exact ⟨fun cur => by simp [splitWSGo], by simp [splitWSSkip]⟩
  | cons c rest ih =>
    constructor
    · intro cur
      by_cases hws : c.isWhitespace = true
      · simp [splitWSGo, hws]
      · rw [Bool.not_eq_true] at hws
        simp only [splitWSGo, hws, Bool.false_eq_true, if_false]
        exact ih.1 (c :: cur)
    · by_cases hws : c.isWhitespace = true
      · simp only [splitWSSkip, hws, if_true]
        exact ih.2
      · rw [Bool.not_eq_true] at hws
        simp only [splitWSSkip, hws, Bool.false_eq_true, if_false]
        exact ih.1 [c]

/-- The query split is never the empty list. -/
theorem splitWS_ne_nil (l : List Char) : splitWS l ≠ [] :=
  (splitWS_aux_ne_nil l).1 []

/-- On an all-whitespace input every piece of the split is empty. -/
theorem splitWS_all_ws (l : List Char) (h : ∀ c ∈ l, c.isWhitespace = true) :
    ∀ t ∈ splitWS l, t = [] := by
  have key : ∀ l, (∀ c ∈ l, c.isWhitespace = true) →
      splitWSSkip l = [[]] ∧
        ∀ cur, splitWSGo cur l = [cur.reverse] ∨
          splitWSGo cur l = [cur.reverse, []] := by
    intro l
    induction l with
    | nil => exact fun _ => ⟨by simp [splitWSSkip], fun cur => Or.inl (by simp [splitWSGo])⟩
    | cons c rest ih =>
      intro hall
      have hc : c.isWhitespace = true := hall c (List.mem_cons_self c rest)
      have hrest : ∀ x ∈ rest, x.isWhitespace = true :=
        fun x hx => hall x (List.mem_cons_of_mem c hx)
      obtain ⟨ihs, ihg⟩ := ih hrest
      constructor
      · simp only [splitWSSkip, hc, if_true]
        exact ihs
      · intro cur
        right
        simp only [splitWSGo, hc, if_true, ihs]
  intro t ht
  unfold splitWS at ht
  rcases (key l h).2 [] with hg | hg
  · rw [hg] at ht
    simpa using ht
  · rw [hg] at ht
    simp only [List.mem_cons, List.reverse_nil, List.mem_singleton, List.not_mem_nil,
      or_false] at ht
    rcases ht with ht | ht <;> exact ht

/-- Lower-casing a whitespace character leaves it unchanged (and hence
whitespace). -/
theorem toLower_ws (c : Char) (h : c.isWhitespace = true) : c.toLower = c := by
  have h2 : c = ' ' ∨ c = '\t' ∨ c = '\r' ∨ c = '\n' := by
    simpa [Char.isWhitespace, Bool.or_eq_true, decide_eq_true_eq, or_assoc] using h
  rcases h2 with h | h | h | h <;> rw [h] <;> decide

/-- Term scores are nonnegative. -/
theorem termScore_nonneg (searchable term : List Char) : 0 ≤ termScore searchable term := by
  unfold termScore
  split
  · split <;> norm_num [SEARCH_WORD_BOUNDARY_BONUS]
  · exact le_refl 0

/-- The empty term always scores at least `1`. -/
theorem termScore_nil (searchable : List Char) : 1 ≤ termScore searchable [] := by
  unfold termScore
  have hinc : chIncl searchable [] = true := by
    simp [chIncl, List.nil_infix]
  rw [if_pos hinc]
  split <;> norm_num [SEARCH_WORD_BOUNDARY_BONUS]

/-- The score fold never decreases below its accumulator. -/
theorem score_foldl_ge (searchable : List Char) (terms : List (List Char)) :
    ∀ acc : ℚ, acc ≤ terms.foldl (fun sc t => sc + termScore searchable t) acc := by
  induction terms with
  | nil => intro acc; simp
  | cons t ts ih =>
    intro acc
    calc acc ≤ acc + termScore searchable t :=
          le_add_of_nonneg_right (termScore_nonneg searchable t)
      _ ≤ _ := by simpa using ih (acc + termScore searchable t)

/-- Scores are nonnegative. -/
theorem sessionScore_nonneg (query : String) (s : EnrichedSession) :
    0 ≤ sessionScore query s := by
  unfold sessionScore
  exact score_foldl_ge (searchableOf s) (splitWS (lowerChars query)) 0

/-- A whitespace-only query gives every session a positive score. -/
theorem sessionScore_pos_of_ws (query : String) (s : EnrichedSession)
    (h : query.data.all Char.isWhitespace = true) :
    0 < sessionScore query s := by
  unfold sessionScore
  have hws : ∀ c ∈ lowerChars query, c.isWhitespace = true := by
    intro c hc
    unfold lowerChars at hc
    rw [List.mem_map] at hc
    obtain ⟨c0, hc0, hlc⟩ := hc
    have h0 : c0.isWhitespace = true := by
      rw [List.all_eq_true] at h
      exact h c0 hc0
    rw [← hlc, toLower_ws c0 h0]
    exact h0
  have hterms := splitWS_all_ws (lowerChars query) hws
  rcases hts : splitWS (lowerChars query) with _ | ⟨t0, ts⟩
  · exact absurd hts (splitWS_ne_nil (lowerChars query))
  have ht0 : t0 = [] := hterms t0 (by rw [hts]; exact List.mem_cons_self t0 ts)
  simp only [List.foldl_cons]
  calc (0 : ℚ) < 1 := by norm_num
    _ ≤ 0 + termScore (searchableOf s) t0 := by
        rw [ht0, zero_add]; exact termScore_nil (searchableOf s)
    _ ≤ _ := score_foldl_ge (searchableOf s) ts (0 + termScore (searchableOf s) t0)

/-- C10: for every session list and every query that is empty or
whitespace-only, `searchSessions` returns every input session (as a
permutation — sorting may reorder): each parsed term of such a query is
the empty string, which occurs in every searchable text, so every
session scores positively and none is filtered out. -/
theorem claimC10_ws_query_keeps_all (sessions : List EnrichedSession) (query : String)
    (h : query.data.all Char.isWhitespace = true) :
    (searchSessions sessions query).Perm sessions := by
  unfold searchSessions
  have hfilter :
      (sessions.map (fun s => (s, sessionScore query s))).filter (fun s => 0 < s.2) =
        sessions.map (fun s => (s, sessionScore query s)) := by
    rw [List.filter_eq_self]
    intro p hp
    rw [List.mem_map] at hp
    obtain ⟨s, _, hps⟩ := hp
    rw [← hps]
    simpa using sessionScore_pos_of_ws query s h
  rw [hfilter]
  have hperm := List.perm_insertionSort scoreRel
    (sessions.map (fun s => (s, sessionScore query s)))
  have hmap := hperm.map (fun p : EnrichedSession × ℚ => p.1)
  rw [List.map_map,
    show ((fun p : EnrichedSession × ℚ => p.1) ∘ fun s => (s, sessionScore query s)) = id
      from rfl,
    List.map_id] at hmap
  exact hmap

/-- C10, witness: the theorem applied to a two-space query and a
singleton list. -/
theorem claimC10_witness :
    ("  ".data.all Char.isWhitespace = true) ∧
      (searchSessions [mkSession "a"] "  ").Perm [mkSession "a"] :=
  ⟨by decide, claimC10_ws_query_keeps_all [mkSession "a"] "  " (by decide)⟩

/-- C8: `searchSessions` returns exactly the sessions with nonzero
score (a permutation of that subset), sorted by descending score, where
a session's score adds `1` for each query term occurring in its
searchable text and a further `SEARCH_WORD_BOUNDARY_BONUS = 0.5` when
the term also occurs enclosed in spaces or at the string's start
followed by a space (`termScore`/`sessionScore`); zero-score sessions
are excluded. -/
theorem claimC8_search_ranking (sessions : List EnrichedSession) (query : String) :
    (searchSessions sessions query).Perm
        (sessions.filter (fun s => sessionScore query s ≠ 0)) ∧
    List.Sorted (fun a b => sessionScore query b ≤ sessionScore query a)
      (searchSessions sessions query) := by
  constructor
  · unfold searchSessions
    have hperm := (List.perm_insertionSort scoreRel
      ((sessions.map (fun s => (s, sessionScore query s))).filter
        (fun s => 0 < s.2))).map (fun p : EnrichedSession × ℚ => p.1)
    have heq : ((sessions.map (fun s => (s, sessionScore query s))).filter
        (fun s => 0 < s.2)).map (fun p : EnrichedSession × ℚ => p.1) =
        sessions.filter (fun s => sessionScore query s ≠ 0) := by
      rw [List.filter_map, List.map_map,
        show ((fun p : EnrichedSession × ℚ => p.1) ∘
            fun s => (s, sessionScore query s)) = id from rfl,
        List.map_id]
      apply List.filter_congr
      intro x _
      have hnn := sessionScore_nonneg query x
      by_cases h : sessionScore query x = 0
      · simp [Function.comp, h]
      · have hpos : 0 < sessionScore query x := lt_of_le_of_ne hnn (Ne.symm h)
        simp [Function.comp, h, hpos]
    exact heq ▸ hperm
  · unfold searchSessions
    have hsorted := List.sorted_insertionSort scoreRel
      ((sessions.map (fun s => (s, sessionScore query s))).filter (fun s => 0 < s.2))
    have hmem : ∀ p ∈ ((sessions.map (fun s => (s, sessionScore query s))).filter
        (fun s => 0 < s.2)).insertionSort scoreRel,
        p.2 = sessionScore query p.1 := by
      intro p hp
      rw [List.mem_insertionSort] at hp
      rw [List.mem_filter] at hp
      obtain ⟨hp1, _⟩ := hp
      rw [List.mem_map] at hp1
      obtain ⟨s, _, hps⟩ := hp1
      rw [← hps]
    have hpw : List.Pairwise
        (fun a b : EnrichedSession × ℚ =>
          sessionScore query b.1 ≤ sessionScore query a.1)
        (((sessions.map (fun s => (s, sessionScore query s))).filter
          (fun s => 0 < s.2)).insertionSort scoreRel) :=
      List.Pairwise.imp_of_mem
        (fun ha hb hr => by
          rename_i a b
          rw [← hmem a ha, ← hmem b hb]
          exact hr)
        hsorted
    exact List.pairwise_map.mpr hpw

/-! ## Claim C9 — discovery never throws -/

/-- C9: the top-level discovery operation always resolves with a list —
per-session problems (unreadable logs, failing `stat`, missing or
corrupt documents, unlistable project directories) are all caught — and
when the projects root itself cannot be enumerated it resolves with the
empty list. -/
theorem claimC9_discovery_total (w : DiscoveryWorld) :
    (∃ l, getAllSessions w = .ok l) ∧
    (∀ e, w.projectDirs = .error e → getAllSessions w = .ok []) := by
  constructor
  · unfold getAllSessions
    cases h : w.projectDirs with
    | error e => exact ⟨[], rfl⟩
    | ok dirs => exact ⟨(dirs.flatMap (rawOfDir w)).map (enrichRaw w), rfl⟩
  · intro e he
    unfold getAllSessions
    rw [he]

/-- C9, witness: a world whose projects root cannot be listed. -/
theorem claimC9_witness :
    getAllSessions
        { projectDirs := .error "EACCES"
          indexDoc := fun _ => none
          dirFiles := fun _ => .error ""
          logRead := fun _ _ => .error ""
          logStat := fun _ _ => .error ""
          metaDoc := fun _ => none
          facetsDoc := fun _ => none
          sizeOf := fun _ _ => 0
          dateMs := fun _ => 0 } = .ok [] :=
  (claimC9_discovery_total _).2 "EACCES" rfl

/-! ## Claims C3, C4, C7 — reconciliation and discovery -/

/-- Strings with equal character data are equal. -/
theorem stringDataInj {a b : String} (h : a.data = b.data) : a = b := by
  cases a; cases b; exact congrArg String.mk h

/-- `chPre` decides list-prefix. -/
theorem chPre_iff (s p : List Char) : chPre s p = true ↔ p <+: s := by
  simp [chPre]

/-- `".jsonl"` has no nontrivial border: no proper nonempty prefix of it
is also a suffix, stated in the form needed below. -/
theorem jsonl_no_border (m : Nat) (h1 : 0 < m) (h2 : m < 6) :
    ¬(".jsonl".data.take m ++ ".jsonl".data.take (6 - m) = ".jsonl".data) := by
  interval_cases m <;> decide

/-- Removing the first occurrence of `".jsonl"` from `id ++ ".jsonl"`
gives back `id`, provided `".jsonl"` does not occur inside `id`. -/
theorem removeFirst_jsonl_append (id : List Char) (h : ¬(".jsonl".data <:+: id)) :
    removeFirst ".jsonl".data (id ++ ".jsonl".data) = id := by
  induction id with
  | nil => decide
  | cons c cs ih =>
    rw [show (c :: cs) ++ ".jsonl".data = c :: (cs ++ ".jsonl".data) from rfl,
      removeFirst]
    by_cases hp : chPre (c :: (cs ++ ".jsonl".data)) ".jsonl".data = true
    · exfalso
      rw [chPre_iff] at hp
      have hp6 : (".jsonl".data).length = 6 := rfl
      have hp1 : ".jsonl".data = ((c :: cs) ++ ".jsonl".data).take 6 := by
        have := List.prefix_iff_eq_take.mp hp
        rw [hp6] at this
        exact this
      by_cases hlen : 6 ≤ (c :: cs).length
      · apply h
        apply List.IsPrefix.isInfix
        rw [List.prefix_iff_eq_take, hp6]
        rw [List.take_append_of_le_length hlen] at hp1
        exact hp1
      · push_neg at hlen
        rw [List.take_append_eq_append_take,
          List.take_of_length_le (le_of_lt hlen)] at hp1
        have hLpre : (c :: cs) = ".jsonl".data.take (c :: cs).length := by
          have := congrArg (List.take (c :: cs).length) hp1.symm
          rw [List.take_left] at this
          exact this
        apply jsonl_no_border (c :: cs).length (by simp) hlen
        rw [← hLpre]
        exact hp1.symm
    · rw [if_neg hp]
      have hcs : ¬(".jsonl".data <:+: cs) := fun hinf => h (List.infix_cons hinf)
      rw [ih hcs]

/-- `f.replace(".jsonl", "")` on a well-behaved id's log filename gives
back the id. -/
theorem replaceJsonlOnce_append (id : String) (h : ¬(".jsonl".data <:+: id.data)) :
    replaceJsonlOnce (id ++ ".jsonl") = id := by
  unfold replaceJsonlOnce
  rw [show (id ++ ".jsonl").data = id.data ++ ".jsonl".data from rfl,
    removeFirst_jsonl_append id.data h]

/-- `basename(f, ".jsonl")` of `id ++ ".jsonl"` is `id`. -/
theorem stripJsonl_append (id : String) : stripJsonl (id ++ ".jsonl") = id := by
  unfold stripJsonl
  have hsuf : sEndsWith (id ++ ".jsonl") ".jsonl" = true := by
    simp only [sEndsWith, chSuf, decide_eq_true_eq]
    exact List.suffix_append id.data ".jsonl".data
  rw [if_pos hsuf]
  apply stringDataInj
  show ((id ++ ".jsonl").data.take ((id ++ ".jsonl").data.length - 6)) = id.data
  rw [show (id ++ ".jsonl").data = id.data ++ ".jsonl".data from rfl,
    List.length_append, show (".jsonl".data).length = 6 from rfl,
    Nat.add_sub_cancel, List.take_left]

/-- Conversely, a `.jsonl`-suffixed filename stripping to `id` must be
`id ++ ".jsonl"`. -/
theorem stripJsonl_inv (f id : String) (h1 : sEndsWith f ".jsonl" = true)
    (h2 : stripJsonl f = id) : f = id ++ ".jsonl" := by
  unfold stripJsonl at h2
  rw [if_pos h1] at h2
  have hs : ".jsonl".data <:+ f.data := by
    simpa [sEndsWith, chSuf] using h1
  obtain ⟨pre, hpre⟩ := hs
  have htake : f.data.take (f.data.length - 6) = pre := by
    rw [← hpre, List.length_append, show (".jsonl".data).length = 6 from rfl,
      Nat.add_sub_cancel, List.take_left]
  have hid : id.data = pre := by
    rw [← congrArg String.data h2]
    exact htake
  apply stringDataInj
  show f.data = (id ++ ".jsonl").data
  rw [show (id ++ ".jsonl").data = id.data ++ ".jsonl".data from rfl, hid]
  exact hpre.symm

/-- Characterisation of a parsed (non-index) phase-1 candidate. -/
theorem parsedRawOf_some (w : DiscoveryWorld) (d f : String) (r : RawSession)
    (h : parsedRawOf w d f = some r) :
    ∃ v, parseJsonlSession (w.logRead d f) (w.logStat d f) f d = .ok (some v) ∧
      r = rawOfParsed v d := by
  unfold parsedRawOf at h
  rcases hp : parseJsonlSession (w.logRead d f) (w.logStat d f) f d with e | ov
  · rw [hp] at h; simp at h
  · cases ov with
    | none => rw [hp] at h; simp at h
    | some v =>
      rw [hp] at h
      simp only [Option.some.injEq] at h
      exact ⟨v, rfl, h.symm⟩

/-- A parsed candidate's session id is its filename with the final
`".jsonl"` stripped. -/
theorem parsedRawOf_sessionId (w : DiscoveryWorld) (d f : String) (r : RawSession)
    (h : parsedRawOf w d f = some r) : r.entry.sessionId = stripJsonl f := by
  obtain ⟨v, hp, hr⟩ := parsedRawOf_some w d f r h
  obtain ⟨lines, fs, _, _, _, hsid, _⟩ := parseJsonlSession_ok_inv _ _ _ _ _ hp
  rw [hr]
  exact hsid

/-- Files selected for parsing end in `".jsonl"`. -/
theorem jsonlFilesOf_ends (ids files : List String) (f : String)
    (h : f ∈ jsonlFilesOf ids files) : sEndsWith f ".jsonl" = true := by
  unfold jsonlFilesOf at h
  rw [List.mem_filter] at h
  exact (Bool.and_eq_true _ _ |>.mp h.2).1

/-- C3, amended: for every session id that does not contain `".jsonl"`
as a substring, if a project's index has exactly one entry for the id
and the id's raw log is on disk, the per-project reconciliation
produces exactly one candidate for that id — the index entry — and does
not select the raw log for parsing. (Without the substring proviso the
claim fails: the seen-check removes the FIRST occurrence of `".jsonl"`
from the filename, not the final extension.) -/
theorem claimC3_amended (w : DiscoveryWorld) (d : String) (idx : IndexDoc)
    (files : List String) (id : String) (e : SessionEntry)
    (hidx : w.indexDoc d = some idx)
    (hone : idx.entries.filter (fun x => x.sessionId = id) = [e])
    (hfiles : w.dirFiles d = .ok files)
    (hmem : (id ++ ".jsonl") ∈ files)
    (hni : ¬(".jsonl".data <:+: id.data)) :
    (id ++ ".jsonl") ∉ jsonlFilesOf (indexedIdsOf (w.indexDoc d)) files ∧
    (rawOfDir w d).filter (fun r => r.entry.sessionId = id) = [rawOfIndexEntry e d] := by
  have he : e ∈ idx.entries.filter (fun x => x.sessionId = id) := by
    rw [hone]; exact List.mem_singleton_self e
  rw [List.mem_filter] at he
  have heid : e.sessionId = id := by simpa using he.2
  have hidIn : id ∈ indexedIdsOf (w.indexDoc d) := by
    rw [hidx]
    unfold indexedIdsOf
    rw [← heid]
    exact List.mem_map_of_mem _ he.1
  have hnotsel : (id ++ ".jsonl") ∉ jsonlFilesOf (indexedIdsOf (w.indexDoc d)) files := by
    intro hmemf
    unfold jsonlFilesOf at hmemf
    rw [List.mem_filter] at hmemf
    have hpred := (Bool.and_eq_true _ _ |>.mp hmemf.2).2
    rw [replaceJsonlOnce_append id hni] at hpred
    rw [Bool.not_eq_true'] at hpred
    rw [show (indexedIdsOf (w.indexDoc d)).contains id =
        List.elem id (indexedIdsOf (w.indexDoc d)) from rfl,
      List.elem_iff.mpr hidIn] at hpred
    cases hpred
  refine ⟨hnotsel, ?_⟩
  unfold rawOfDir
  rw [hfiles, List.filter_append]
  have hpart1 : (fromIndexOf (w.indexDoc d) d).filter
      (fun r => r.entry.sessionId = id) = [rawOfIndexEntry e d] := by
    rw [hidx]
    unfold fromIndexOf
    rw [List.filter_map]
    have hc : ((fun r : RawSession => decide (r.entry.sessionId = id)) ∘
        (fun x : SessionEntry => rawOfIndexEntry x d)) =
        (fun x : SessionEntry => decide (x.sessionId = id)) := rfl
    rw [hc, hone]
    rfl
  have hpart2 : ((jsonlFilesOf (indexedIdsOf (w.indexDoc d)) files).filterMap
      (parsedRawOf w d)).filter (fun r => r.entry.sessionId = id) = [] := by
    rw [List.filter_eq_nil_iff]
    intro r hr
    rw [List.mem_filterMap] at hr
    obtain ⟨f, hf, hg⟩ := hr
    have hsid := parsedRawOf_sessionId w d f r hg
    simp only [decide_eq_true_eq]
    intro hrid
    have hfid : stripJsonl f = id := by rw [← hsid, hrid]
    have hfeq : f = id ++ ".jsonl" :=
      stripJsonl_inv f id (jsonlFilesOf_ends _ files f hf) hfid
    rw [hfeq] at hf
    exact hnotsel hf
  rw [hpart1, hpart2, List.append_nil]

/-- A world exhibiting the seen-check flaw: session id `x.jsonly` is in
the index AND its raw log `x.jsonly.jsonl` is on disk, but removing
the FIRST occurrence of `".jsonl"` from the filename gives `xy.jsonl`,
which is not a seen id, so the log is re-parsed. -/
def cex3World : DiscoveryWorld :=
  { projectDirs := .ok ["d"]
    indexDoc := fun dn =>
      if dn = "d" then
        some { version := 1, entries := [mkEntry "x.jsonly"], originalPath := "/x" }
      else none
    dirFiles := fun dn => if dn = "d" then .ok ["x.jsonly.jsonl"] else .error ""
    logRead := fun _ _ => .ok [LogLine.corrupt]
    logStat := fun _ _ => .ok statEx
    metaDoc := fun _ => none
    facetsDoc := fun _ => none
    sizeOf := fun _ _ => 0
    dateMs := fun _ => 0 }

/-- C3, counterexample: for id `x.jsonly`, present in the index with
its raw log on disk, discovery returns TWO candidates for the id and
the raw log IS selected for parsing — the claim as stated is false. -/
theorem claimC3_counterexample :
    (getAllSessions cex3World).map (List.map (fun s => s.entry.sessionId)) =
      .ok ["x.jsonly", "x.jsonly"] ∧
    "x.jsonly.jsonl" ∈
      jsonlFilesOf (indexedIdsOf (cex3World.indexDoc "d")) ["x.jsonly.jsonl"] := by
  constructor
  · rfl
  · decide

/-- C3, witness: the amended theorem at a well-behaved id `abc`. -/
theorem claimC3_witness :
    (rawOfDir
        { projectDirs := .ok ["d"]
          indexDoc := fun dn =>
            if dn = "d" then
              some { version := 1, entries := [mkEntry "abc"], originalPath := "/x" }
            else none
          dirFiles := fun dn => if dn = "d" then .ok ["abc.jsonl"] else .error ""
          logRead := fun _ _ => .ok [LogLine.corrupt]
          logStat := fun _ _ => .ok statEx
          metaDoc := fun _ => none
          facetsDoc := fun _ => none
          sizeOf := fun _ _ => 0
          dateMs := fun _ => 0 } "d").filter
      (fun r => r.entry.sessionId = "abc") = [rawOfIndexEntry (mkEntry "abc") "d"] :=
  (claimC3_amended _ "d" { version := 1, entries := [mkEntry "abc"], originalPath := "/x" }
    ["abc.jsonl"] "abc" (mkEntry "abc") rfl (by decide) rfl (by decide) (by decide)).2

/-- Enrichment never changes a candidate's identity or timestamps (it
can only overwrite a sentinel first prompt). -/
theorem enrichRaw_entry_ids (w : DiscoveryWorld) (raw : RawSession) :
    (enrichRaw w raw).entry.sessionId = raw.entry.sessionId ∧
    (enrichRaw w raw).entry.created = raw.entry.created ∧
    (enrichRaw w raw).entry.modified = raw.entry.modified := by
  unfold enrichRaw
  split <;> exact ⟨rfl, rfl, rfl⟩

/-- Mapping over a `filterMap` whose successful values project like the
original elements is a sublist of mapping over all elements. -/
theorem map_filterMap_sublist {α β γ : Type} (g : α → Option β) (h : β → γ)
    (k : α → γ) (l : List α) (hgk : ∀ a b, g a = some b → h b = k a) :
    ((l.filterMap g).map h).Sublist (l.map k) := by
  induction l with
  | nil => simp
  | cons a t ih =>
    rw [List.filterMap_cons]
    cases hga : g a with
    | none =>
      rw [List.map_cons]
      exact (ih).cons (k a)
    | some b =>
      rw [List.map_cons, List.map_cons, hgk a b hga]
      exact (ih).cons₂ (k a)

/-- Element-wise sublists lift through `flatMap`. -/
theorem flatMap_sublist {α β : Type} (p q : α → List β) (l : List α)
    (h : ∀ a ∈ l, (p a).Sublist (q a)) : (l.flatMap p).Sublist (l.flatMap q) := by
  induction l with
  | nil => simp
  | cons a t ih =>
    rw [List.flatMap_cons, List.flatMap_cons]
    exact (h a (List.mem_cons_self a t)).append
      (ih fun x hx => h x (List.mem_cons_of_mem a hx))

/-- The session ids a project directory can contribute, read off the
on-disk data alone: its index entries' ids followed by the stripped
names of its unindexed `.jsonl` files. -/
def candidateIdsOfDir (w : DiscoveryWorld) (d : String) : List String :=
  indexedIdsOf (w.indexDoc d) ++
    match w.dirFiles d with
    | .ok files => (jsonlFilesOf (indexedIdsOf (w.indexDoc d)) files).map stripJsonl
    | .error _ => []

/-- The index part of phase 1 carries exactly the index ids. -/
theorem fromIndexOf_ids (idx : Option IndexDoc) (d : String) :
    (fromIndexOf idx d).map (fun r => r.entry.sessionId) = indexedIdsOf idx := by
  unfold fromIndexOf indexedIdsOf
  cases idx with
  | none => rfl
  | some i => rw [List.map_map]; rfl

/-- Phase-1 candidates of one directory draw their ids from
`candidateIdsOfDir`, in order. -/
theorem rawOfDir_ids_sublist (w : DiscoveryWorld) (d : String) :
    ((rawOfDir w d).map (fun r => r.entry.sessionId)).Sublist
      (candidateIdsOfDir w d) := by
  unfold rawOfDir candidateIdsOfDir
  cases hdf : w.dirFiles d with
  | error e =>
    rw [fromIndexOf_ids, List.append_nil]
  | ok files =>
    rw [List.map_append, fromIndexOf_ids]
    apply List.Sublist.append (List.Sublist.refl _)
    exact map_filterMap_sublist (parsedRawOf w d) _ stripJsonl _
      (fun f r hg => parsedRawOf_sessionId w d f r hg)

/-- Executable lexicographic comparison of character lists (the order
in which ISO-8601 timestamp strings compare chronologically). -/
def strLeB : List Char → List Char → Bool
  | [], _ => true
  | _ :: _, [] => false
  | a :: as, b :: bs =>
    if a < b then true
    else if b < a then false
    else strLeB as bs

/-- Lexicographic comparison of strings (used for timestamp order). -/
def strLe (a b : String) : Bool := strLeB a.data b.data

/-- The timestamp order as a relation. -/
def strLeRel (a b : String) : Prop := strLe a b = true

theorem strLeB_refl (l : List Char) : strLeB l l = true := by
  induction l with
  | nil => rfl
  | cons a as ih => simp [strLeB, lt_irrefl, ih]

theorem strLeB_trans (l1 l2 l3 : List Char) (h1 : strLeB l1 l2 = true)
    (h2 : strLeB l2 l3 = true) : strLeB l1 l3 = true := by
  induction l1 generalizing l2 l3 with
  | nil => rfl
  | cons a as ih =>
    cases l2 with
    | nil => simp [strLeB] at h1
    | cons b bs =>
      cases l3 with
      | nil => simp [strLeB] at h2
      | cons c cs =>
        simp only [strLeB] at h1 h2 ⊢
        by_cases hab : a < b
        · by_cases hbc : b < c
          · simp [lt_trans hab hbc]
          · by_cases hcb : c < b
            · simp [hbc, hcb] at h2
            · have hbc2 : b = c := le_antisymm (not_lt.mp hcb) (not_lt.mp hbc)
              simp [hbc2 ▸ hab]
        · by_cases hba : b < a
          · simp [hab, hba] at h1
          · have hab2 : a = b := le_antisymm (not_lt.mp hba) (not_lt.mp hab)
            subst hab2
            by_cases hbc : a < c
            · simp [hbc]
            · by_cases hcb : c < a
              · simp [hbc, hcb] at h2
              · have hbc2 : a = c := le_antisymm (not_lt.mp hcb) (not_lt.mp hbc)
                subst hbc2
                have h1b : strLeB as bs = true := by simpa [lt_irrefl] using h1
                have h2b : strLeB bs cs = true := by simpa [lt_irrefl] using h2
                simpa [lt_irrefl] using ih bs cs h1b h2b

instance : IsTrans String strLeRel :=
  ⟨fun a b c h1 h2 => strLeB_trans a.data b.data c.data h1 h2⟩

/-- The head of a nondecreasing chain is at most its last element. -/
theorem head_le_getLast_of_chain (t : String) (ts : List String)
    (h : List.Chain' strLeRel (t :: ts)) :
    ∀ b, (t :: ts).getLast? = some b → strLe t b = true := by
  intro b hb
  have hpw := List.chain'_iff_pairwise.mp h
  cases ts with
  | nil =>
    rw [show ([t] : List String).getLast? = some t from rfl] at hb
    injection hb with hb
    rw [← hb]
    exact strLeB_refl t.data
  | cons a ts2 =>
    have hne : (a :: ts2) ≠ [] := by simp
    rw [show ((t :: a :: ts2) : List String).getLast? = (a :: ts2).getLast? from rfl,
      List.getLast?_eq_getLast _ hne] at hb
    injection hb with hb
    have hmem : (a :: ts2).getLast hne ∈ (a :: ts2) := List.getLast_mem hne
    rw [hb] at hmem
    exact (List.pairwise_cons.mp hpw).1 b hmem

/-- Every phase-1 candidate of a directory with well-ordered on-disk
data satisfies `created ≤ modified`. -/
theorem rawOfDir_created_le (w : DiscoveryWorld) (d : String) (raw : RawSession)
    (hidxgood : ∀ idx, w.indexDoc d = some idx →
      ∀ e ∈ idx.entries, strLe e.created e.modified = true)
    (hts : ∀ f lines, w.logRead d f = .ok lines → (tsSeq lines).Chain' strLeRel)
    (hstat : ∀ f fs, w.logStat d f = .ok fs →
      strLe fs.birthtimeIso fs.mtimeIso = true)
    (hmem : raw ∈ rawOfDir w d) :
    strLe raw.entry.created raw.entry.modified = true := by
  have hfrom : raw ∈ fromIndexOf (w.indexDoc d) d →
      strLe raw.entry.created raw.entry.modified = true := by
    intro hm
    unfold fromIndexOf at hm
    cases hidx : w.indexDoc d with
    | none => rw [hidx] at hm; cases hm
    | some i =>
      rw [hidx] at hm
      rw [List.mem_map] at hm
      obtain ⟨x, hx, hxr⟩ := hm
      rw [← hxr]
      exact hidxgood i hidx x hx
  have hparsed : ∀ f, parsedRawOf w d f = some raw →
      strLe raw.entry.created raw.entry.modified = true := by
    intro f hg
    obtain ⟨v, hp, hr⟩ := parsedRawOf_some w d f raw hg
    obtain ⟨lines, fs, hread, hstat2, _, _, hcr, hmo, _, _⟩ :=
      parseJsonlSession_ok_inv _ _ _ _ _ hp
    rw [hr]
    have hve : (rawOfParsed v d).entry = v.entry := rfl
    rw [hve, hcr, hmo]
    have hchain := hts f lines hread
    have hbm := hstat f fs hstat2
    cases htsq : tsSeq lines with
    | nil => simpa [htsq] using hbm
    | cons t ts =>
      rw [htsq] at hchain
      rcases hlast : (t :: ts).getLast? with _ | b
      · cases ts with
        | nil => cases hlast
        | cons a ts2 =>
          rw [show ((t :: a :: ts2) : List String).getLast? = (a :: ts2).getLast?
            from rfl, List.getLast?_eq_getLast _ (by simp)] at hlast
          cases hlast
      · have := head_le_getLast_of_chain t ts hchain b hlast
        simpa using this
  unfold rawOfDir at hmem
  cases hdf : w.dirFiles d with
  | error e =>
    rw [hdf] at hmem
    exact hfrom hmem
  | ok files =>
    rw [hdf] at hmem
    rw [List.mem_append] at hmem
    rcases hmem with hm | hm
    · exact hfrom hm
    · rw [List.mem_filterMap] at hm
      obtain ⟨f, _, hg⟩ := hm
      exact hparsed f hg

/-- C4, amended: if no session id occurs twice across the index entries
and unindexed log filenames of all project directories, every index
entry satisfies `created ≤ modified`, every log's timestamp sequence is
nondecreasing, and every file's birth time precedes its modification
time, then the discovery result has pairwise-distinct session ids and
`created ≤ modified` throughout. (Unconditioned, the invariant fails:
the code never deduplicates, and timestamps are copied from on-disk
data as-is.) -/
theorem claimC4_amended (w : DiscoveryWorld) (dirs : List String)
    (hdirs : w.projectDirs = .ok dirs)
    (huniq : (dirs.flatMap (candidateIdsOfDir w)).Nodup)
    (hidxgood : ∀ d idx, w.indexDoc d = some idx →
      ∀ e ∈ idx.entries, strLe e.created e.modified = true)
    (hts : ∀ d f lines, w.logRead d f = .ok lines →
      (tsSeq lines).Chain' strLeRel)
    (hstat : ∀ d f fs, w.logStat d f = .ok fs →
      strLe fs.birthtimeIso fs.mtimeIso = true)
    (res : List EnrichedSession) (hres : getAllSessions w = .ok res) :
    (res.map (fun s => s.entry.sessionId)).Nodup ∧
    ∀ s ∈ res, strLe s.entry.created s.entry.modified = true := by
  have hres2 : res = (dirs.flatMap (rawOfDir w)).map (enrichRaw w) := by
    unfold getAllSessions at hres
    rw [hdirs] at hres
    injection hres with hres
    exact hres.symm
  constructor
  · rw [hres2, List.map_map]
    have hcomp : ((fun s : EnrichedSession => s.entry.sessionId) ∘ enrichRaw w) =
        (fun r : RawSession => r.entry.sessionId) := by
      funext r
      exact (enrichRaw_entry_ids w r).1
    rw [hcomp]
    have hsub : ((dirs.flatMap (rawOfDir w)).map
        (fun r : RawSession => r.entry.sessionId)).Sublist
        (dirs.flatMap (candidateIdsOfDir w)) := by
      rw [List.map_flatMap]
      exact flatMap_sublist _ _ dirs (fun d _ => rawOfDir_ids_sublist w d)
    exact List.Nodup.sublist hsub huniq
  · intro s hs
    rw [hres2, List.mem_map] at hs
    obtain ⟨raw, hraw, hsr⟩ := hs
    rw [List.mem_flatMap] at hraw
    obtain ⟨d, _, hrd⟩ := hraw
    have hcl := rawOfDir_created_le w d raw (hidxgood d) (hts d) (hstat d) hrd
    rw [← hsr, (enrichRaw_entry_ids w raw).2.1, (enrichRaw_entry_ids w raw).2.2]
    exact hcl

/-- First index entry of the C4 counterexample: `created > modified`. -/
def cex4e1 : SessionEntry :=
  { sessionId := "s"
    fullPath := "p"
    fileMtime := 0
    firstPrompt := "a"
    messageCount := 0
    created := "2024-02"
    modified := "2024-01"
    projectPath := "/x"
    isSidechain := false }

/-- Second index entry: a different entry sharing the same session id. -/
def cex4e2 : SessionEntry := { cex4e1 with firstPrompt := "b" }

/-- A world whose single index document carries two distinct entries
with the same session id, both with `created > modified`. -/
def cex4World : DiscoveryWorld :=
  { projectDirs := .ok ["d"]
    indexDoc := fun _ => some { version := 1, entries := [cex4e1, cex4e2], originalPath := "/x" }
    dirFiles := fun _ => .ok []
    logRead := fun _ _ => .error ""
    logStat := fun _ _ => .error ""
    metaDoc := fun _ => none
    facetsDoc := fun _ => none
    sizeOf := fun _ _ => 0
    dateMs := fun _ => 0 }

/-- The discovery result on that world. -/
def cex4Res : List EnrichedSession :=
  [{ entry := cex4e1
     meta := none
     facets := none
     totalSizeBytes := 0
     projectDirName := "d"
     computedDurationMinutes := some 0
     computedInputTokens := none
     computedOutputTokens := none },
   { entry := cex4e2
     meta := none
     facets := none
     totalSizeBytes := 0
     projectDirName := "d"
     computedDurationMinutes := some 0
     computedInputTokens := none
     computedOutputTokens := none }]

/-- C4, counterexample: the code accepts index entries unconditionally,
so a result list can repeat a session id, and `created ≤ modified` can
fail — the invariant as stated is false. -/
theorem claimC4_counterexample :
    getAllSessions cex4World = .ok cex4Res ∧
    ¬(cex4Res.map (fun s => s.entry.sessionId)).Nodup ∧
    cex4Res.all (fun s => strLe s.entry.created s.entry.modified) = false := by
  refine ⟨rfl, by decide, by decide⟩

/-- A well-formed one-entry world for the C4 witness. -/
def wit4World : DiscoveryWorld :=
  { projectDirs := .ok ["d"]
    indexDoc := fun _ =>
      some { version := 1, entries := [mkEntry "w"], originalPath := "/x" }
    dirFiles := fun _ => .ok []
    logRead := fun _ _ => .error ""
    logStat := fun _ _ => .error ""
    metaDoc := fun _ => none
    facetsDoc := fun _ => none
    sizeOf := fun _ _ => 0
    dateMs := fun _ => 0 }

/-- The discovery result on `wit4World`. -/
def wit4Res : List EnrichedSession :=
  [{ entry := mkEntry "w"
     meta := none
     facets := none
     totalSizeBytes := 0
     projectDirName := "d"
     computedDurationMinutes := some 0
     computedInputTokens := none
     computedOutputTokens := none }]

/-- C4, witness: the amended invariant applied to `wit4World`. -/
theorem claimC4_witness :
    (wit4Res.map (fun s => s.entry.sessionId)).Nodup :=
  (claimC4_amended wit4World ["d"] rfl (by decide)
    (by
      intro d idx h e he
      injection h with h
      rw [← h] at he
      simp only [List.mem_singleton] at he
      rw [he]
      decide)
    (by intro d f lines h; exact Except.noConfusion h)
    (by intro d f fs h; exact Except.noConfusion h)
    wit4Res rfl).1

/-- `filterMap` over a list containing exactly one occurrence of a
distinguished element, whose image alone satisfies the filter, filters
to that single image. -/
theorem filter_filterMap_single {α β : Type} [DecidableEq α] (p : β → Bool) (g : α → Option β)
    (L : List α) (a : α) (b : β)
    (hcount : L.count a = 1) (hga : g a = some b) (hpb : p b = true)
    (hother : ∀ x ∈ L, x ≠ a → ∀ y, g x = some y → p y = false) :
    (L.filterMap g).filter p = [b] := by
  induction L with
  | nil => simp at hcount
  | cons x t ih =>
    rw [List.count_cons] at hcount
    by_cases hxa : x = a
    · subst hxa
      have ht0 : t.count x = 0 := by simpa using hcount
      have hnot : x ∉ t := List.count_eq_zero.mp ht0
      rw [List.filterMap_cons, hga]
      have hrest : (t.filterMap g).filter p = [] := by
        rw [List.filter_eq_nil_iff]
        intro y hy
        rw [List.mem_filterMap] at hy
        obtain ⟨x2, hx2, hgx2⟩ := hy
        have hx2a : x2 ≠ x := fun he => hnot (he ▸ hx2)
        rw [hother x2 (List.mem_cons_of_mem _ hx2) hx2a y hgx2]
        simp
      simp [List.filter_cons, hpb, hrest]
    · have hcount2 : t.count a = 1 := by simpa [hxa] using hcount
      rw [List.filterMap_cons]
      have hoth2 : ∀ x2 ∈ t, x2 ≠ a → ∀ y, g x2 = some y → p y = false :=
        fun x2 hx2 hx2a y hg2 => hother x2 (List.mem_cons_of_mem _ hx2) hx2a y hg2
      cases hgx : g x with
      | none => exact ih hcount2 hoth2
      | some y =>
        have hpy : p y = false :=
          hother x (List.mem_cons_self x t) hxa y hgx
        rw [List.filter_cons, hpy]
        exact ih hcount2 hoth2

/-- `flatMap` over a list containing exactly one occurrence of a
distinguished element, whose block alone contributes to the filter,
filters to that block's contribution. -/
theorem filter_flatMap_single {α β : Type} [DecidableEq α] (p : β → Bool) (g : α → List β)
    (L : List α) (a : α) (b : β)
    (hcount : L.count a = 1) (hga : (g a).filter p = [b])
    (hother : ∀ x ∈ L, x ≠ a → (g x).filter p = []) :
    (L.flatMap g).filter p = [b] := by
  induction L with
  | nil => simp at hcount
  | cons x t ih =>
    rw [List.flatMap_cons, List.filter_append]
    rw [List.count_cons] at hcount
    by_cases hxa : x = a
    · subst hxa
      have ht0 : t.count x = 0 := by simpa using hcount
      have hnot : x ∉ t := List.count_eq_zero.mp ht0
      have hrest : (t.flatMap g).filter p = [] := by
        rw [List.filter_eq_nil_iff]
        intro y hy
        rw [List.mem_flatMap] at hy
        obtain ⟨x2, hx2, hyx2⟩ := hy
        have hx2a : x2 ≠ x := fun he => hnot (he ▸ hx2)
        exact (List.filter_eq_nil_iff.mp
          (hother x2 (List.mem_cons_of_mem _ hx2) hx2a)) y hyx2
      rw [hga, hrest, List.append_nil]
    · have hcount2 : t.count a = 1 := by simpa [hxa] using hcount
      rw [hother x (List.mem_cons_self x t) hxa, List.nil_append]
      exact ih hcount2 (fun x2 hx2 => hother x2 (List.mem_cons_of_mem _ hx2))

/-- An index-derived candidate's id is among the recorded index ids. -/
theorem fromIndexOf_mem_ids (idx : Option IndexDoc) (d : String) (r : RawSession)
    (h : r ∈ fromIndexOf idx d) : r.entry.sessionId ∈ indexedIdsOf idx := by
  unfold fromIndexOf at h
  unfold indexedIdsOf
  cases idx with
  | none => cases h
  | some i =>
    rw [List.mem_map] at h
    obtain ⟨x, hx, hxr⟩ := h
    rw [← hxr]
    exact List.mem_map_of_mem _ hx

/-- The full parse result for a readable, non-empty log. -/
def parsedEntryOf (lines : List LogLine) (fs : FileStat) (f d : String) : ParsedSession :=
  { entry :=
      { sessionId := stripJsonl f
        fullPath := joinPath d f
        fileMtime := fs.mtimeMs
        firstPrompt :=
          (match ((lines.filterMap promptOf).filter
              (fun p => p ≠ "No prompt")).head? with
           | some p => p
           | none => "No prompt")
        customTitle := (parseLines lines).customTitle
        messageCount := lines.countP isUserLine
        created := ((tsSeq lines).head?).getD fs.birthtimeIso
        modified := ((tsSeq lines).getLast?).getD fs.mtimeIso
        gitBranch := (parseLines lines).gitBranch
        projectPath :=
          if (parseLines lines).projectPath = "" then decodeDirName d
          else (parseLines lines).projectPath
        isSidechain := false }
    inputTokens := assistantInputSum lines
    outputTokens := assistantOutputSum lines }

/-- `parseJsonlSession_ok`, restated through `parsedEntryOf`. -/
theorem parseJsonlSession_ok2 (lines : List LogLine) (fs : FileStat) (f d : String)
    (h : lines.any nonBlank = true) :
    parseJsonlSession (.ok lines) (.ok fs) f d =
      .ok (some (parsedEntryOf lines fs f d)) :=
  parseJsonlSession_ok lines fs f d h

/-- C7, amended: for a session whose only trace is a raw log with at
least one non-blank line (its id in no index, its log file nowhere
else, and not containing `".jsonl"` as a substring), discovery yields
exactly one entry for the id, whose `computedInputTokens` is the sum
over assistant records of `input_tokens + cache_creation_input_tokens
+ cache_read_input_tokens` when that sum is nonzero and ABSENT when it
is zero (`sum || undefined`), and likewise `computedOutputTokens` for
`output_tokens`. -/
theorem claimC7_amended (w : DiscoveryWorld) (dirs : List String) (d : String)
    (files : List String) (lines : List LogLine) (fs : FileStat) (id : String)
    (hdirs : w.projectDirs = .ok dirs)
    (hdcount : dirs.count d = 1)
    (hnoidx : ∀ d2, id ∉ indexedIdsOf (w.indexDoc d2))
    (hocc : ∀ d2 ∈ dirs, ∀ files2, w.dirFiles d2 = .ok files2 →
      ∀ f2 ∈ files2, sEndsWith f2 ".jsonl" = true → stripJsonl f2 = id →
        d2 = d ∧ f2 = id ++ ".jsonl")
    (hfiles : w.dirFiles d = .ok files)
    (hfcount : files.count (id ++ ".jsonl") = 1)
    (hni : ¬(".jsonl".data <:+: id.data))
    (hread : w.logRead d (id ++ ".jsonl") = .ok lines)
    (hnb : lines.any nonBlank = true)
    (hstat : w.logStat d (id ++ ".jsonl") = .ok fs)
    (res : List EnrichedSession) (hres : getAllSessions w = .ok res) :
    (res.filter (fun s => s.entry.sessionId = id)).map
        (fun s => (s.computedInputTokens, s.computedOutputTokens)) =
      [((if assistantInputSum lines = 0 then none else some (assistantInputSum lines)),
        (if assistantOutputSum lines = 0 then none
         else some (assistantOutputSum lines)))] := by
  have hres2 : res = (dirs.flatMap (rawOfDir w)).map (enrichRaw w) := by
    unfold getAllSessions at hres
    rw [hdirs] at hres
    injection hres with hres
    exact hres.symm
  have hga : (rawOfDir w d).filter (fun r => r.entry.sessionId = id) =
      [rawOfParsed (parsedEntryOf lines fs (id ++ ".jsonl") d) d] := by
    unfold rawOfDir
    rw [hfiles, List.filter_append]
    have h1 : (fromIndexOf (w.indexDoc d) d).filter
        (fun r => r.entry.sessionId = id) = [] := by
      rw [List.filter_eq_nil_iff]
      intro r hr
      simp only [decide_eq_true_eq]
      intro hrid
      exact hnoidx d (hrid ▸ fromIndexOf_mem_ids _ d r hr)
    rw [h1, List.nil_append]
    have hfeq : sEndsWith (id ++ ".jsonl") ".jsonl" = true := by
      simp only [sEndsWith, chSuf, decide_eq_true_eq]
      exact List.suffix_append id.data ".jsonl".data
    have hfpass : (sEndsWith (id ++ ".jsonl") ".jsonl" &&
        !((indexedIdsOf (w.indexDoc d)).contains (replaceJsonlOnce (id ++ ".jsonl")))) =
        true := by
      rw [hfeq, replaceJsonlOnce_append id hni, Bool.true_and]
      cases helem : (indexedIdsOf (w.indexDoc d)).contains id with
      | false => rfl
      | true =>
        exact absurd (List.elem_iff.mp helem) (hnoidx d)
    have hcnt : (jsonlFilesOf (indexedIdsOf (w.indexDoc d)) files).count
        (id ++ ".jsonl") = 1 := by
      unfold jsonlFilesOf
      rw [@List.count_filter String _ _
        (fun f => sEndsWith f ".jsonl" &&
          !((indexedIdsOf (w.indexDoc d)).contains (replaceJsonlOnce f)))
        (id ++ ".jsonl") files hfpass]
      exact hfcount
    apply filter_filterMap_single (fun r => r.entry.sessionId = id) (parsedRawOf w d)
      (jsonlFilesOf (indexedIdsOf (w.indexDoc d)) files) (id ++ ".jsonl")
      (rawOfParsed (parsedEntryOf lines fs (id ++ ".jsonl") d) d) hcnt
    · unfold parsedRawOf
      rw [hread, hstat, parseJsonlSession_ok2 lines fs (id ++ ".jsonl") d hnb]
    · simp only [decide_eq_true_eq]
      show stripJsonl (id ++ ".jsonl") = id
      exact stripJsonl_append id
    · intro f2 hf2 hf2ne y hgy
      have hsid := parsedRawOf_sessionId w d f2 y hgy
      rw [decide_eq_false_iff_not]
      intro hy
      have hstrip : stripJsonl f2 = id := by rw [← hsid, hy]
      exact hf2ne (stripJsonl_inv f2 id
        (jsonlFilesOf_ends (indexedIdsOf (w.indexDoc d)) files f2 hf2) hstrip)
  have hother : ∀ d2 ∈ dirs, d2 ≠ d →
      (rawOfDir w d2).filter (fun r => r.entry.sessionId = id) = [] := by
    intro d2 hd2 hne
    rw [List.filter_eq_nil_iff]
    intro r hr
    simp only [decide_eq_true_eq]
    intro hrid
    unfold rawOfDir at hr
    cases hdf2 : w.dirFiles d2 with
    | error e =>
      rw [hdf2] at hr
      exact hnoidx d2 (hrid ▸ fromIndexOf_mem_ids _ d2 r hr)
    | ok files2 =>
      rw [hdf2] at hr
      rw [List.mem_append] at hr
      rcases hr with hr | hr
      · exact hnoidx d2 (hrid ▸ fromIndexOf_mem_ids _ d2 r hr)
      · rw [List.mem_filterMap] at hr
        obtain ⟨f2, hf2, hg2⟩ := hr
        have hsid := parsedRawOf_sessionId w d2 f2 r hg2
        have hend := jsonlFilesOf_ends (indexedIdsOf (w.indexDoc d2)) files2 f2 hf2
        have hstrip : stripJsonl f2 = id := by rw [← hsid, hrid]
        have hf2mem : f2 ∈ files2 := by
          unfold jsonlFilesOf at hf2
          exact (List.mem_filter.mp hf2).1
        exact hne (hocc d2 hd2 files2 hdf2 f2 hf2mem hend hstrip).1
  have hflat : (dirs.flatMap (rawOfDir w)).filter (fun r => r.entry.sessionId = id) =
      [rawOfParsed (parsedEntryOf lines fs (id ++ ".jsonl") d) d] :=
    filter_flatMap_single (fun r => r.entry.sessionId = id) (rawOfDir w) dirs d
      (rawOfParsed (parsedEntryOf lines fs (id ++ ".jsonl") d) d) hdcount hga hother
  rw [hres2, List.filter_map]
  have hcong : (dirs.flatMap (rawOfDir w)).filter
      ((fun s : EnrichedSession => decide (s.entry.sessionId = id)) ∘ enrichRaw w) =
      (dirs.flatMap (rawOfDir w)).filter (fun r => r.entry.sessionId = id) := by
    apply List.filter_congr
    intro x _
    simp only [Function.comp]
    rw [show (enrichRaw w x).entry.sessionId = x.entry.sessionId from
      (enrichRaw_entry_ids w x).1]
  rw [hcong, hflat]
  rfl

/-- A world with one session present only as a raw log containing a
single user record and NO assistant records (token sums are zero). -/
def cex7World : DiscoveryWorld :=
  { projectDirs := .ok ["d"]
    indexDoc := fun _ => none
    dirFiles := fun _ => .ok ["s.jsonl"]
    logRead := fun _ _ =>
      .ok [LogLine.record { type := some "user", content := some (.str "hi") }]
    logStat := fun _ _ => .ok statEx
    metaDoc := fun _ => none
    facetsDoc := fun _ => none
    sizeOf := fun _ _ => 0
    dateMs := fun _ => 0 }

/-- C7, counterexample: the session exists only as a raw log and its
assistant-token sums are `0`, but `inputTokens || undefined` turns the
zero sum into an ABSENT `computedInputTokens`, so the field does not
equal the sum — the claim as stated is false. -/
theorem claimC7_counterexample :
    assistantInputSum
        [LogLine.record { type := some "user", content := some (.str "hi") }] = 0 ∧
    (getAllSessions cex7World).map
        (List.map (fun s =>
          (s.entry.sessionId, s.computedInputTokens, s.computedOutputTokens))) =
      .ok [("s", none, none)] := by
  exact ⟨rfl, rfl⟩

/-- Usage payload of the C7 witness log. -/
def wit7Usage : UsageObj := ⟨some 3, some 4, some 5, some 7⟩

/-- A one-record assistant log: input sum `3 + 4 + 5 = 12`, output `7`. -/
def wit7Lines : List LogLine :=
  [LogLine.record
    { type := some "assistant", message := some ⟨none, some wit7Usage, none⟩ }]

/-- A world where session `s7` exists only as that raw log. -/
def wit7World : DiscoveryWorld :=
  { projectDirs := .ok ["d"]
    indexDoc := fun _ => none
    dirFiles := fun _ => .ok ["s7.jsonl"]
    logRead := fun _ _ => .ok wit7Lines
    logStat := fun _ _ => .ok statEx
    metaDoc := fun _ => none
    facetsDoc := fun _ => none
    sizeOf := fun _ _ => 0
    dateMs := fun _ => 0 }

/-- The discovery result on `wit7World`. -/
def wit7Res : List EnrichedSession :=
  [{ entry :=
       { sessionId := "s7"
         fullPath := "d/s7.jsonl"
         fileMtime := 5
         firstPrompt := "No prompt"
         messageCount := 0
         created := "b"
         modified := "m"
         projectPath := "/d"
         isSidechain := false }
     meta := none
     facets := none
     totalSizeBytes := 0
     projectDirName := "d"
     computedDurationMinutes := some 0
     computedInputTokens := some 12
     computedOutputTokens := some 7 }]

/-- C7, witness: the amended theorem applied to `wit7World`. -/
theorem claimC7_witness :
    (wit7Res.filter (fun s => s.entry.sessionId = "s7")).map
        (fun s => (s.computedInputTokens, s.computedOutputTokens)) =
      [((if assistantInputSum wit7Lines = 0 then none
         else some (assistantInputSum wit7Lines)),
        (if assistantOutputSum wit7Lines = 0 then none
         else some (assistantOutputSum wit7Lines)))] :=
  claimC7_amended wit7World ["d"] "d" ["s7.jsonl"] wit7Lines statEx "s7" rfl
    (by decide)
    (fun d2 => List.not_mem_nil "s7")
    (by
      intro d2 hd2 files2 hf2 f2 hf2mem hend hstrip
      simp only [List.mem_singleton] at hd2
      injection hf2 with hf2
      rw [← hf2] at hf2mem
      simp only [List.mem_singleton] at hf2mem
      exact ⟨hd2, by rw [hf2mem]; rfl⟩)
    rfl (by decide) (by decide) rfl (by decide) rfl wit7Res rfl
